import Mathlib

/-!
Verification of the chunked transcription reconciliation pipeline of
`backend/audio_diarization.py` against its natural-language specification.

The Python module is shallowly embedded: raw model output and timestamp
strings become `List Char`; Python `dict`s parsed from JSON become
association lists with dict semantics (unique keys, insertion order,
last-assignment-wins values); Python `float` arithmetic on timestamps is
modelled by exact rationals (`ℚ`) — all quantities handled by the code are
far below the scale where binary-double rounding (about 2e-11 at 86400 s)
could cross any of the millisecond-level thresholds in the specification,
and decimal formatting with `round` models Python's `format` rounding.
Fallible Python code (exceptions) returns `Option`/`Except`.
-/

/-! ## Characters, digits, and numeric rendering/parsing -/

/-- Text is modelled as a list of characters. -/
abbrev Chars := List Char

/-- Opening brace character (written via its code point). -/
def lbrace : Char := '\x7b'

/-- Closing brace character (written via its code point). -/
def rbrace : Char := '\x7d'

/-- Backtick character (written via its code point). -/
def btick : Char := '\x60'

/-- The character for a single decimal digit. -/
def digitChar (d : ℕ) : Char := Char.ofNat (48 + d)

/-- Base-10 digits, least significant first, by structural recursion on a
fuel bound (so that the kernel can evaluate it; proven equal to
`Nat.digits 10` below). -/
def natDigitsAux : ℕ → ℕ → List ℕ
  | 0, _ => []
  | _ + 1, 0 => []
  | fuel + 1, n + 1 => ((n + 1) % 10) :: natDigitsAux fuel ((n + 1) / 10)

/-- Base-10 digits of a natural number, least significant first. -/
def natDigits (n : ℕ) : List ℕ := natDigitsAux n n

theorem natDigitsAux_eq (fuel : ℕ) : ∀ n : ℕ, n ≤ fuel → natDigitsAux fuel n = Nat.digits 10 n := by
  induction fuel with
  | zero =>
    intro n hn
    interval_cases n
    simp [natDigitsAux]
  | succ f ih =>
    intro n hn
    match n with
    | 0 => simp [natDigitsAux]
    | m + 1 =>
      rw [show natDigitsAux (f + 1) (m + 1) = ((m + 1) % 10) :: natDigitsAux f ((m + 1) / 10)
        from rfl]
      rw [ih ((m + 1) / 10) (by omega), Nat.digits_def' (by norm_num) (Nat.succ_pos m)]

theorem natDigits_eq (n : ℕ) : natDigits n = Nat.digits 10 n :=
  natDigitsAux_eq n n (le_refl n)

/-- Decimal rendering of a natural number, most significant digit first
(the behaviour of Python's `str`/format on a nonnegative integer). -/
def natChars (n : ℕ) : Chars :=
  if n = 0 then ['0'] else ((natDigits n).reverse.map digitChar)

/-- Zero-pad a rendered natural number on the left to width `w`
(Python's `{n:0wd}` for nonnegative `n`). -/
def padNat (w : ℕ) (n : ℕ) : Chars :=
  List.replicate (w - (natChars n).length) '0' ++ natChars n

/-- Accumulate one decimal digit character onto a value (the inner step of
parsing a digit string most-significant-first). -/
def digStep (a : ℕ) (c : Char) : ℕ := 10 * a + (c.toNat - 48)

/-- Value of a string of decimal digit characters (0 for the empty string). -/
def digitsVal (cs : Chars) : ℕ := cs.foldl digStep 0

/-- Parse a nonempty all-digit string as a natural number; models Python's
`int(str)` restricted to plain digit strings (the only form the pipeline
ever produces or consumes). -/
def parseNatChars (cs : Chars) : Option ℕ :=
  if cs ≠ [] ∧ cs.all Char.isDigit then some (digitsVal cs) else none

/-- Split a character list at every occurrence of `sep`; agrees with
Python's `str.split(sep)` for a one-character separator. -/
def splitOnChar (sep : Char) : Chars → List Chars
  | [] => [[]]
  | c :: cs =>
    match splitOnChar sep cs with
    | [] => []
    | r :: rs => if c = sep then [] :: r :: rs else (c :: r) :: rs

/-- Parse `digits` or `digits.digits` (either side of the dot possibly
empty, but not both) as a rational; models Python's `float(str)` on the
decimal forms the pipeline produces. -/
def parseDecChars (cs : Chars) : Option ℚ :=
  match splitOnChar '.' cs with
  | [i] => if i ≠ [] ∧ i.all Char.isDigit then some ((digitsVal i : ℚ)) else none
  | [i, f] =>
    if (i ≠ [] ∨ f ≠ []) ∧ i.all Char.isDigit ∧ f.all Char.isDigit then
      some ((digitsVal i : ℚ) + (digitsVal f : ℚ) / 10 ^ f.length)
    else none
  | _ => none

theorem digitChar_spec : ∀ d : ℕ, d < 10 →
    (digitChar d).isDigit = true ∧ (digitChar d).toNat - 48 = d ∧
    digitChar d ≠ ':' ∧ digitChar d ≠ '.' ∧ digitChar d ≠ ',' := by decide

theorem digitsVal_reverse (l : List ℕ) (h : ∀ d ∈ l, d < 10) :
    digitsVal ((l.reverse).map digitChar) = Nat.ofDigits 10 l := by
  induction l with
  | nil => rfl
  | cons d t ih =>
    have hd : d < 10 := h d (List.mem_cons_self d t)
    have ht : ∀ x ∈ t, x < 10 := fun x hx => h x (List.mem_cons_of_mem d hx)
    simp only [List.reverse_cons, List.map_append, List.map_cons, List.map_nil]
    simp only [digitsVal, List.foldl_append, List.foldl_cons, List.foldl_nil]
    rw [show (t.reverse.map digitChar).foldl digStep 0 = digitsVal (t.reverse.map digitChar) from rfl,
      ih ht]
    simp [digStep, (digitChar_spec d hd).2.1, Nat.ofDigits_cons]
    ring

theorem mem_natChars (n : ℕ) (c : Char) (hc : c ∈ natChars n) :
    ∃ d, d < 10 ∧ c = digitChar d := by
  unfold natChars at hc
  rw [natDigits_eq] at hc
  by_cases h : n = 0
  · rw [if_pos h] at hc
    rcases List.mem_singleton.mp hc with rfl
    exact ⟨0, ⟨by norm_num, rfl⟩⟩
  · rw [if_neg h] at hc
    rcases List.mem_map.mp hc with ⟨d, hd, hmap⟩
    exact ⟨d, ⟨Nat.digits_lt_base (by norm_num) (List.mem_reverse.mp hd), hmap.symm⟩⟩

theorem natChars_all_digits (n : ℕ) : (natChars n).all Char.isDigit = true := by
  rw [List.all_eq_true]
  intro c hc
  obtain ⟨d, hd, rfl⟩ := mem_natChars n c hc
  exact (digitChar_spec d hd).1

theorem natChars_ne_nil (n : ℕ) : natChars n ≠ [] := by
  unfold natChars
  rw [natDigits_eq]
  by_cases h : n = 0
  · simp [h]
  · rw [if_neg h]
    intro hcon
    have h2 : Nat.digits 10 n = [] :=
      List.reverse_eq_nil_iff.mp (List.map_eq_nil_iff.mp hcon)
    exact (Nat.digits_ne_nil_iff_ne_zero.mpr h) h2

theorem natChars_length_le (b p : ℕ) (hp : 1 ≤ p) (hb : b < 10 ^ p) :
    (natChars b).length ≤ p := by
  unfold natChars
  rw [natDigits_eq]
  by_cases h : b = 0
  · simpa [h] using hp
  · rw [if_neg h]
    rw [List.length_map, List.length_reverse]
    have h1 : 10 ^ (Nat.digits 10 b).length ≤ 10 * b :=
      Nat.base_pow_length_digits_le 10 b (by norm_num) h
    have h2 : 10 * b < 10 ^ (p + 1) := by
      rw [pow_succ]
      nlinarith [hb]
    have h3 : 10 ^ (Nat.digits 10 b).length < 10 ^ (p + 1) := lt_of_le_of_lt h1 h2
    have := (Nat.pow_lt_pow_iff_right (by norm_num : 1 < 10)).mp h3
    omega

theorem padNat_length (p b : ℕ) (hp : 1 ≤ p) (hb : b < 10 ^ p) :
    (padNat p b).length = p := by
  unfold padNat
  rw [List.length_append, List.length_replicate]
  have := natChars_length_le b p hp hb
  omega

theorem digitsVal_natChars (n : ℕ) : digitsVal (natChars n) = n := by
  unfold natChars
  rw [natDigits_eq]
  by_cases h : n = 0
  · simp [h]; rfl
  · simp only [h, if_false]
    rw [digitsVal_reverse _ (fun d hd => Nat.digits_lt_base (by norm_num) hd)]
    exact Nat.ofDigits_digits 10 n

theorem digitsVal_replicate_zero (k : ℕ) (cs : Chars) :
    digitsVal (List.replicate k '0' ++ cs) = digitsVal cs := by
  induction k with
  | zero => rfl
  | succ m ih =>
    simpa [List.replicate_succ, digitsVal, digStep] using ih

theorem parseNatChars_padNat (w n : ℕ) : parseNatChars (padNat w n) = some n := by
  unfold parseNatChars padNat
  have hne : List.replicate (w - (natChars n).length) '0' ++ natChars n ≠ [] := by
    simp [natChars_ne_nil n]
  have hall : (List.replicate (w - (natChars n).length) '0' ++ natChars n).all Char.isDigit = true := by
    rw [List.all_append, Bool.and_eq_true]
    refine ⟨?_, natChars_all_digits n⟩
    rw [List.all_eq_true]
    intro c hc
    rw [List.eq_of_mem_replicate hc]
    rfl
  rw [if_pos ⟨hne, hall⟩, digitsVal_replicate_zero, digitsVal_natChars]

theorem parseNatChars_natChars (n : ℕ) : parseNatChars (natChars n) = some n := by
  have := parseNatChars_padNat 0 n
  simpa [padNat] using this

theorem mem_padNat (w n : ℕ) (c : Char) (hc : c ∈ padNat w n) :
    ∃ d, d < 10 ∧ c = digitChar d := by
  unfold padNat at hc
  rcases List.mem_append.mp hc with h | h
  · rw [List.eq_of_mem_replicate h]
    exact ⟨0, ⟨by norm_num, rfl⟩⟩
  · exact mem_natChars n c h

theorem digitsVal_padNat (w n : ℕ) : digitsVal (padNat w n) = n := by
  unfold padNat
  rw [digitsVal_replicate_zero, digitsVal_natChars]

theorem padNat_ne_nil (w n : ℕ) : padNat w n ≠ [] := by
  unfold padNat
  simp [natChars_ne_nil n]

theorem padNat_all_digits (w n : ℕ) : (padNat w n).all Char.isDigit = true := by
  rw [List.all_eq_true]
  intro c hc
  obtain ⟨d, hd, rfl⟩ := mem_padNat w n c hc
  exact (digitChar_spec d hd).1

theorem splitOnChar_ne_nil (sep : Char) (cs : Chars) : splitOnChar sep cs ≠ [] := by
  induction cs with
  | nil => simp [splitOnChar]
  | cons c t ih =>
    simp only [splitOnChar]
    rcases h : splitOnChar sep t with _ | ⟨r, rs⟩
    · exact absurd h ih
    · by_cases hc : c = sep <;> simp [hc]

theorem splitOnChar_no_sep (sep : Char) (cs : Chars) (h : sep ∉ cs) :
    splitOnChar sep cs = [cs] := by
  induction cs with
  | nil => rfl
  | cons c t ih =>
    have hc : c ≠ sep := fun he => h (he ▸ List.mem_cons_self c t)
    have ht : sep ∉ t := fun he => h (List.mem_cons_of_mem c he)
    simp only [splitOnChar, ih ht]
    simp [hc]

theorem splitOnChar_append (sep : Char) (A B : Chars) (h : sep ∉ A) :
    splitOnChar sep (A ++ sep :: B) = A :: splitOnChar sep B := by
  induction A with
  | nil =>
    simp only [List.nil_append, splitOnChar]
    rcases hb : splitOnChar sep B with _ | ⟨r, rs⟩
    · exact absurd hb (splitOnChar_ne_nil sep B)
    · simp
  | cons c t ih =>
    have hc : c ≠ sep := fun he => h (he ▸ List.mem_cons_self c t)
    have ht : sep ∉ t := fun he => h (List.mem_cons_of_mem c he)
    simp only [List.cons_append, splitOnChar, List.append_eq]
    rw [ih ht]
    simp [hc]

theorem parseDecChars_natChars (n : ℕ) : parseDecChars (natChars n) = some ((n : ℚ)) := by
  have hdot : '.' ∉ natChars n := by
    intro hc
    obtain ⟨d, hd, he⟩ := mem_natChars n _ hc
    exact (digitChar_spec d hd).2.2.2.1 he.symm
  simp only [parseDecChars, splitOnChar_no_sep _ _ hdot]
  rw [if_pos ⟨natChars_ne_nil n, natChars_all_digits n⟩, digitsVal_natChars]

theorem parseDecChars_padNat (w n : ℕ) : parseDecChars (padNat w n) = some ((n : ℚ)) := by
  have hdot : '.' ∉ padNat w n := by
    intro hc
    obtain ⟨d, hd, he⟩ := mem_padNat w n _ hc
    exact (digitChar_spec d hd).2.2.2.1 he.symm
  simp only [parseDecChars, splitOnChar_no_sep _ _ hdot]
  rw [if_pos ⟨padNat_ne_nil w n, padNat_all_digits w n⟩, digitsVal_padNat]

theorem parseDecChars_pad_pair (w p a b : ℕ) (hp : 1 ≤ p) (hb : b < 10 ^ p) :
    parseDecChars (padNat w a ++ '.' :: padNat p b) =
      some ((a : ℚ) + (b : ℚ) / 10 ^ p) := by
  have hdotA : '.' ∉ padNat w a := by
    intro hc
    obtain ⟨d, hd, he⟩ := mem_padNat w a _ hc
    exact (digitChar_spec d hd).2.2.2.1 he.symm
  have hdotB : '.' ∉ padNat p b := by
    intro hc
    obtain ⟨d, hd, he⟩ := mem_padNat p b _ hc
    exact (digitChar_spec d hd).2.2.2.1 he.symm
  simp only [parseDecChars, splitOnChar_append _ _ _ hdotA, splitOnChar_no_sep _ _ hdotB]
  rw [if_pos ⟨Or.inl (padNat_ne_nil w a), ⟨padNat_all_digits w a, padNat_all_digits p b⟩⟩]
  rw [digitsVal_padNat, digitsVal_padNat, padNat_length p b hp hb]

/-! ## Timestamp conversion functions of `audio_diarization.py`

Python `float` values are modelled as exact rationals; `x // y`, `x % y`
and fixed-precision `format` rounding are modelled value-exactly. -/

/-- Python's `%` on numbers (`x - y * (x // y)`), for a positive modulus. -/
def pyMod (x y : ℚ) : ℚ := x - y * ⌊x / y⌋

/-- Python's fixed-point formatting `f"{x:0w.pf}"` for a nonnegative value:
round to `p` decimal places, zero-pad the integer part so the whole string
is at least `w` characters wide. -/
def formatFixed (w p : ℕ) (x : ℚ) : Chars :=
  padNat (w - (p + 1)) ((round (x * 10 ^ p)).toNat / 10 ^ p) ++
    '.' :: padNat p ((round (x * 10 ^ p)).toNat % 10 ^ p)

/-- Model of `seconds_to_timestamp`: convert seconds to a timestamp string
like `MM:SS.mmm` (`f"{minutes:02d}:{secs:06.3f}"` with
`minutes = int(seconds // 60)` and `secs = seconds % 60`). -/
def seconds_to_timestamp (s : ℚ) : Chars :=
  padNat 2 (⌊s / 60⌋).toNat ++ ':' :: formatFixed 6 3 (pyMod s 60)

/-- Model of `timestamp_to_seconds`: split on `:` into exactly two parts,
`int(minutes) * 60 + float(rest)`; any other shape raises (is `none`). -/
def timestamp_to_seconds (cs : Chars) : Option ℚ :=
  match splitOnChar ':' cs with
  | [m, r] => do
    let mv ← parseNatChars m
    let rv ← parseDecChars r
    pure ((mv : ℚ) * 60 + rv)
  | _ => none

/-- Model of `format_timestamp_precise`: format seconds as
`f"{hours}:{minutes:02d}:{secs:09.6f}"` with `hours = int(seconds // 3600)`,
`minutes = int((seconds % 3600) // 60)`, `secs = seconds % 60`. -/
def format_timestamp_precise (s : ℚ) : Chars :=
  natChars (⌊s / 3600⌋).toNat ++
    ':' :: (padNat 2 (⌊pyMod s 3600 / 60⌋).toNat ++
      ':' :: formatFixed 9 6 (pyMod s 60))

/-- The timestamp-to-seconds conversion performed inline by
`process_diarization` on each `start`/`end` value: if the string contains
`:`, split on `:`; three parts are read as `H:MM:SS.mmm`
(`float(p0)*3600 + float(p1)*60 + float(p2)`), any other multi-part shape
uses the first two parts as `MM:SS.mmm`; a string without `:` is read
directly as a float number of seconds. -/
def annotationSeconds (cs : Chars) : Option ℚ :=
  if ':' ∈ cs then
    match splitOnChar ':' cs with
    | [p0, p1, p2] => do
      let a ← parseDecChars p0
      let b ← parseDecChars p1
      let c ← parseDecChars p2
      pure (a * 3600 + b * 60 + c)
    | p0 :: p1 :: _ => do
      let a ← parseDecChars p0
      let b ← parseDecChars p1
      pure (a * 60 + b)
    | _ => none
  else parseDecChars cs

theorem pyMod_nonneg (x y : ℚ) (hy : 0 < y) : 0 ≤ pyMod x y := by
  unfold pyMod
  have h := Int.floor_le (x / y)
  have : (⌊x / y⌋ : ℚ) * y ≤ x := by
    rw [← le_div_iff₀ hy]
    exact h
  linarith [this]

theorem pyMod_lt (x y : ℚ) (hy : 0 < y) : pyMod x y < y := by
  unfold pyMod
  have h := Int.lt_floor_add_one (x / y)
  have : x < (⌊x / y⌋ + 1) * y := by
    rw [← div_lt_iff₀ hy]
    exact_mod_cast h
  nlinarith [this]

theorem round_toNat_cast (y : ℚ) (hy : 0 ≤ y) :
    (((round y).toNat : ℚ)) = (round y : ℚ) := by
  have h0 : (0 : ℤ) ≤ round y := by
    rw [round_eq]
    exact Int.floor_nonneg.mpr (by linarith)
  exact_mod_cast congrArg (fun z : ℤ => (z : ℚ)) (Int.toNat_of_nonneg h0)

theorem formatFixed_parse (w p : ℕ) (hp : 1 ≤ p) (x : ℚ) :
    parseDecChars (formatFixed w p x) =
      some ((((round (x * 10 ^ p)).toNat : ℚ)) / 10 ^ p) := by
  unfold formatFixed
  have hb : (round (x * 10 ^ p)).toNat % 10 ^ p < 10 ^ p := Nat.mod_lt _ (by positivity)
  rw [parseDecChars_pad_pair _ p _ _ hp hb]
  congr 1
  have hdm : 10 ^ p * ((round (x * 10 ^ p)).toNat / 10 ^ p) +
      (round (x * 10 ^ p)).toNat % 10 ^ p = (round (x * 10 ^ p)).toNat :=
    Nat.div_add_mod _ _
  have hcast : (10 : ℚ) ^ p * (((round (x * 10 ^ p)).toNat / 10 ^ p : ℕ) : ℚ) +
      (((round (x * 10 ^ p)).toNat % 10 ^ p : ℕ) : ℚ) =
      (((round (x * 10 ^ p)).toNat : ℕ) : ℚ) := by
    exact_mod_cast congrArg (fun k : ℕ => (k : ℚ)) hdm
  have h10 : ((10 : ℚ) ^ p) ≠ 0 := by positivity
  rw [eq_div_iff h10, add_mul, div_mul_cancel₀ _ h10]
  linarith [hcast]

theorem formatFixed_approx (p : ℕ) (x : ℚ) (hx : 0 ≤ x) :
    |(((round (x * 10 ^ p)).toNat : ℚ)) / 10 ^ p - x| ≤ 1 / (2 * 10 ^ p) := by
  have hy : (0 : ℚ) ≤ x * 10 ^ p := by positivity
  rw [round_toNat_cast _ hy]
  have h := abs_sub_round (x * 10 ^ p)
  rw [abs_sub_comm] at h
  have hpos : (0 : ℚ) < 10 ^ p := by positivity
  have key : (round (x * 10 ^ p) : ℚ) / 10 ^ p - x =
      ((round (x * 10 ^ p) : ℚ) - x * 10 ^ p) / 10 ^ p := by
    rw [eq_div_iff (ne_of_gt hpos), sub_mul, div_mul_cancel₀ _ (ne_of_gt hpos)]
  rw [key, abs_div, abs_of_pos hpos, div_le_div_iff₀ hpos (by positivity)]
  nlinarith [h, hpos]

theorem colon_not_mem_padNat (w n : ℕ) : ':' ∉ padNat w n := by
  intro hc
  obtain ⟨d, hd, he⟩ := mem_padNat w n _ hc
  exact (digitChar_spec d hd).2.2.1 he.symm

theorem colon_not_mem_natChars (n : ℕ) : ':' ∉ natChars n := by
  intro hc
  obtain ⟨d, hd, he⟩ := mem_natChars n _ hc
  exact (digitChar_spec d hd).2.2.1 he.symm

theorem colon_not_mem_formatFixed (w p : ℕ) (x : ℚ) : ':' ∉ formatFixed w p x := by
  unfold formatFixed
  intro hc
  rcases List.mem_append.mp hc with h | h
  · exact colon_not_mem_padNat _ _ h
  · rcases List.mem_cons.mp h with h' | h'
    · exact absurd h' (by decide)
    · exact colon_not_mem_padNat _ _ h'

theorem timestamp_roundtrip_eq (s : ℚ) (hs : 0 ≤ s) :
    timestamp_to_seconds (seconds_to_timestamp s) =
      some (60 * (⌊s / 60⌋ : ℚ) + (((round (pyMod s 60 * 10 ^ 3)).toNat : ℚ)) / 10 ^ 3) := by
  unfold seconds_to_timestamp timestamp_to_seconds
  rw [splitOnChar_append _ _ _ (colon_not_mem_padNat 2 (⌊s / 60⌋).toNat),
    splitOnChar_no_sep _ _ (colon_not_mem_formatFixed 6 3 (pyMod s 60))]
  simp only [parseNatChars_padNat, formatFixed_parse 6 3 (by norm_num) (pyMod s 60),
    Option.bind_eq_bind, Option.some_bind, Option.pure_def]
  congr 1
  have hfl : (0 : ℤ) ≤ ⌊s / 60⌋ := Int.floor_nonneg.mpr (by positivity)
  have : (((⌊s / 60⌋).toNat : ℕ) : ℚ) = ((⌊s / 60⌋ : ℤ) : ℚ) := by
    exact_mod_cast congrArg (fun z : ℤ => (z : ℚ)) (Int.toNat_of_nonneg hfl)
  rw [this]
  ring

theorem timestamp_roundtrip_approx (s : ℚ) (hs : 0 ≤ s) :
    ∃ v, timestamp_to_seconds (seconds_to_timestamp s) = some v ∧ |v - s| ≤ 1 / 2000 := by
  refine ⟨_, timestamp_roundtrip_eq s hs, ?_⟩
  have hr : 0 ≤ pyMod s 60 := pyMod_nonneg s 60 (by norm_num)
  have h := formatFixed_approx 3 (pyMod s 60) hr
  have hsplit : s = 60 * (⌊s / 60⌋ : ℚ) + pyMod s 60 := by
    unfold pyMod
    ring
  have heq : 60 * (⌊s / 60⌋ : ℚ) + (((round (pyMod s 60 * 10 ^ 3)).toNat : ℚ)) / 10 ^ 3 - s =
      (((round (pyMod s 60 * 10 ^ 3)).toNat : ℚ)) / 10 ^ 3 - pyMod s 60 := by
    linarith [hsplit]
  rw [heq]
  calc |(((round (pyMod s 60 * 10 ^ 3)).toNat : ℚ)) / 10 ^ 3 - pyMod s 60|
      ≤ 1 / (2 * 10 ^ 3) := h
    _ = 1 / 2000 := by norm_num

theorem timestamp_roundtrip_exact (n : ℕ) :
    timestamp_to_seconds (seconds_to_timestamp ((n : ℚ) / 1000)) = some ((n : ℚ) / 1000) := by
  have hs : (0 : ℚ) ≤ (n : ℚ) / 1000 := by positivity
  rw [timestamp_roundtrip_eq _ hs]
  congr 1
  have hint : pyMod ((n : ℚ) / 1000) 60 * 10 ^ 3 =
      (((n : ℤ) - 60000 * ⌊(n : ℚ) / 1000 / 60⌋ : ℤ) : ℚ) := by
    unfold pyMod
    push_cast
    ring
  rw [hint, round_intCast]
  have hnn : (0 : ℤ) ≤ (n : ℤ) - 60000 * ⌊(n : ℚ) / 1000 / 60⌋ := by
    have h0 : (0 : ℚ) ≤ pyMod ((n : ℚ) / 1000) 60 := pyMod_nonneg _ 60 (by norm_num)
    have := hint ▸ (by positivity : (0 : ℚ) ≤ pyMod ((n : ℚ) / 1000) 60 * 10 ^ 3)
    exact_mod_cast this
  have hcast : ((((n : ℤ) - 60000 * ⌊(n : ℚ) / 1000 / 60⌋).toNat : ℕ) : ℚ) =
      (((n : ℤ) - 60000 * ⌊(n : ℚ) / 1000 / 60⌋ : ℤ) : ℚ) := by
    exact_mod_cast congrArg (fun z : ℤ => (z : ℚ)) (Int.toNat_of_nonneg hnn)
  rw [hcast]
  push_cast
  ring

theorem precise_roundtrip_eq (s : ℚ) (hs : 0 ≤ s) :
    annotationSeconds (format_timestamp_precise s) =
      some (60 * (⌊s / 60⌋ : ℚ) + (((round (pyMod s 60 * 10 ^ 6)).toNat : ℚ)) / 10 ^ 6) := by
  unfold annotationSeconds format_timestamp_precise
  rw [if_pos (by simp : ':' ∈ natChars (⌊s / 3600⌋).toNat ++
    ':' :: (padNat 2 (⌊pyMod s 3600 / 60⌋).toNat ++ ':' :: formatFixed 9 6 (pyMod s 60)))]
  rw [splitOnChar_append _ _ _ (colon_not_mem_natChars (⌊s / 3600⌋).toNat),
    splitOnChar_append _ _ _ (colon_not_mem_padNat 2 (⌊pyMod s 3600 / 60⌋).toNat),
    splitOnChar_no_sep _ _ (colon_not_mem_formatFixed 9 6 (pyMod s 60))]
  simp only [parseDecChars_natChars, parseDecChars_padNat,
    formatFixed_parse 9 6 (by norm_num) (pyMod s 60),
    Option.bind_eq_bind, Option.some_bind, Option.pure_def]
  congr 1
  have hH : (0 : ℤ) ≤ ⌊s / 3600⌋ := Int.floor_nonneg.mpr (by positivity)
  have hMq : (0 : ℚ) ≤ pyMod s 3600 / 60 := by
    have := pyMod_nonneg s 3600 (by norm_num)
    positivity
  have hM : (0 : ℤ) ≤ ⌊pyMod s 3600 / 60⌋ := Int.floor_nonneg.mpr hMq
  have hHc : (((⌊s / 3600⌋).toNat : ℕ) : ℚ) = ((⌊s / 3600⌋ : ℤ) : ℚ) := by
    exact_mod_cast congrArg (fun z : ℤ => (z : ℚ)) (Int.toNat_of_nonneg hH)
  have hMc : (((⌊pyMod s 3600 / 60⌋).toNat : ℕ) : ℚ) = ((⌊pyMod s 3600 / 60⌋ : ℤ) : ℚ) := by
    exact_mod_cast congrArg (fun z : ℤ => (z : ℚ)) (Int.toNat_of_nonneg hM)
  rw [hHc, hMc]
  have hsub : pyMod s 3600 / 60 = s / 60 - ((60 * ⌊s / 3600⌋ : ℤ) : ℚ) := by
    unfold pyMod
    push_cast
    ring
  have hfloor : ⌊pyMod s 3600 / 60⌋ = ⌊s / 60⌋ - 60 * ⌊s / 3600⌋ := by
    rw [hsub, Int.floor_sub_int]
  rw [hfloor]
  push_cast
  ring

theorem precise_roundtrip_approx (s : ℚ) (hs : 0 ≤ s) :
    ∃ v, annotationSeconds (format_timestamp_precise s) = some v ∧ |v - s| ≤ 1 / 1000 := by
  refine ⟨_, precise_roundtrip_eq s hs, ?_⟩
  have hr : 0 ≤ pyMod s 60 := pyMod_nonneg s 60 (by norm_num)
  have h := formatFixed_approx 6 (pyMod s 60) hr
  have hsplit : s = 60 * (⌊s / 60⌋ : ℚ) + pyMod s 60 := by
    unfold pyMod
    ring
  have heq : 60 * (⌊s / 60⌋ : ℚ) + (((round (pyMod s 60 * 10 ^ 6)).toNat : ℚ)) / 10 ^ 6 - s =
      (((round (pyMod s 60 * 10 ^ 6)).toNat : ℚ)) / 10 ^ 6 - pyMod s 60 := by
    linarith [hsplit]
  rw [heq]
  calc |(((round (pyMod s 60 * 10 ^ 6)).toNat : ℚ)) / 10 ^ 6 - pyMod s 60|
      ≤ 1 / (2 * 10 ^ 6) := h
    _ ≤ 1 / 1000 := by norm_num

theorem precise_roundtrip_exact (n : ℕ) :
    annotationSeconds (format_timestamp_precise ((n : ℚ) / 1000)) = some ((n : ℚ) / 1000) := by
  have hs : (0 : ℚ) ≤ (n : ℚ) / 1000 := by positivity
  rw [precise_roundtrip_eq _ hs]
  congr 1
  have hint : pyMod ((n : ℚ) / 1000) 60 * 10 ^ 6 =
      (((1000 * n : ℕ) - 60000000 * ⌊(n : ℚ) / 1000 / 60⌋ : ℤ) : ℚ) := by
    unfold pyMod
    push_cast
    ring
  rw [hint, round_intCast]
  have hnn : (0 : ℤ) ≤ ((1000 * n : ℕ) : ℤ) - 60000000 * ⌊(n : ℚ) / 1000 / 60⌋ := by
    have h0 : (0 : ℚ) ≤ pyMod ((n : ℚ) / 1000) 60 := pyMod_nonneg _ 60 (by norm_num)
    have := hint ▸ (by positivity : (0 : ℚ) ≤ pyMod ((n : ℚ) / 1000) 60 * 10 ^ 6)
    exact_mod_cast this
  have hcast : (((((1000 * n : ℕ) : ℤ) - 60000000 * ⌊(n : ℚ) / 1000 / 60⌋).toNat : ℕ) : ℚ) =
      ((((1000 * n : ℕ) : ℤ) - 60000000 * ⌊(n : ℚ) / 1000 / 60⌋ : ℤ) : ℚ) := by
    exact_mod_cast congrArg (fun z : ℤ => (z : ℚ)) (Int.toNat_of_nonneg hnn)
  rw [hcast]
  push_cast
  ring

/-! ## JSON values and `json.loads`

Parsed JSON data (Python dicts/lists/strings/numbers/booleans/None) is
modelled by the mutual inductive below. Objects carry key/value lists with
dict semantics: the parser folds duplicate keys with last-assignment-wins
at the first occurrence position, exactly as `json.loads` builds a `dict`,
so every object reachable from parsed data has unique keys. -/

mutual

inductive Json where
  | null : Json
  | bool : Bool → Json
  | num : ℚ → Json
  | str : Chars → Json
  | arr : JsonArr → Json
  | obj : JsonObj → Json
deriving DecidableEq

inductive JsonArr where
  | nil : JsonArr
  | cons : Json → JsonArr → JsonArr
deriving DecidableEq

inductive JsonObj where
  | nil : JsonObj
  | cons : String → Json → JsonObj → JsonObj
deriving DecidableEq

end

/-- A Python dict with JSON values, as an association list in insertion
order (unique keys by construction of the parser and of `jset`). -/
abbrev JObj := List (String × Json)

/-- Convert the packed array representation to a list. -/
def JsonArr.toList : JsonArr → List Json
  | .nil => []
  | .cons v rest => v :: rest.toList

/-- Convert a list of values to the packed array representation. -/
def arrOfList : List Json → JsonArr
  | [] => .nil
  | v :: rest => .cons v (arrOfList rest)

/-- Convert the packed object representation to an association list. -/
def JsonObj.toList : JsonObj → JObj
  | .nil => []
  | .cons k v rest => (k, v) :: rest.toList

/-- Convert an association list to the packed object representation. -/
def objOfList : JObj → JsonObj
  | [] => .nil
  | (k, v) :: rest => .cons k v (objOfList rest)

/-- First-match lookup in a dict (total; `none` when the key is absent). -/
def jlookup : JObj → String → Option Json
  | [], _ => none
  | (k', v) :: rest, k => if k' = k then some v else jlookup rest k

/-- Python's `dict.get(k)`: the value, or `None` when absent. -/
def jget (o : JObj) (k : String) : Json := (jlookup o k).getD Json.null

/-- Python's `k in dict`. -/
def jhas (o : JObj) (k : String) : Bool := (jlookup o k).isSome

/-- Python's `dict[k] = v`: overwrite in place if present, else append. -/
def jset : JObj → String → Json → JObj
  | [], k, v => [(k, v)]
  | (k', v') :: rest, k, v =>
    if k' = k then (k', v) :: rest else (k', v') :: jset rest k v

/-- Python truthiness of a JSON value (`None`, `False`, `0`, `""`, `[]`
and an empty dict are falsy). -/
def Json.truthy : Json → Bool
  | .null => false
  | .bool b => b
  | .num q => decide (q ≠ 0)
  | .str s => !s.isEmpty
  | .arr a => decide (a ≠ JsonArr.nil)
  | .obj o => decide (o ≠ JsonObj.nil)

/-- Python's `str()` as used by the f-string that concatenates two `word`
values in `deduplicate_entries`. In the pipeline a `word` is a parsed JSON
string, `None`, or a boolean; container and numeric values never reach the
concatenation (and are rendered as empty here — no theorem depends on
those cases, whose true Python rendering is the `repr` of the value). -/
def pyStr : Json → Chars
  | .str s => s
  | .null => "None".data
  | .bool true => "True".data
  | .bool false => "False".data
  | .num _ => []
  | .arr _ => []
  | .obj _ => []

/-! ## A model of `json.loads`

Recursive-descent parser over characters, with fuel for termination (the
fuel `length + 1` always suffices: at least one character is consumed
before each recursive call). Deliberate restrictions, none reachable by
the inputs of the theorems below: `NaN`/`Infinity` literals are rejected,
and a `\u` escape does not combine surrogate pairs. The parser rejects
trailing data after the top-level value, as `json.loads` does. -/

/-- Skip JSON whitespace (space, tab, line feed, carriage return). -/
def jsSkipWs : Chars → Chars
  | [] => []
  | c :: cs => if c = ' ' ∨ c = '\t' ∨ c = '\n' ∨ c = '\r' then jsSkipWs cs else c :: cs

/-- Maximal leading run of decimal digits. -/
def takeDigits : Chars → Chars × Chars
  | [] => ([], [])
  | c :: cs =>
    if c.isDigit then
      let (d, r) := takeDigits cs
      (c :: d, r)
    else ([], c :: cs)

/-- Value of one hexadecimal digit character. -/
def parseHex (c : Char) : Option ℕ :=
  if c.isDigit then some (c.toNat - 48)
  else if 'a' ≤ c ∧ c ≤ 'f' then some (c.toNat - 87)
  else if 'A' ≤ c ∧ c ≤ 'F' then some (c.toNat - 55)
  else none

/-- Parse the body of a JSON string (after the opening quote) up to the
closing quote, decoding escapes; raw control characters are rejected
(`json.loads` strict mode). -/
def parseJsonStringBody : ℕ → Chars → Option (Chars × Chars)
  | 0, _ => none
  | _, [] => none
  | fuel + 1, c :: cs =>
    if c = '"' then some ([], cs)
    else if c = '\\' then
      match cs with
      | [] => none
      | e :: cs2 =>
        let esc : Option (Char × Chars) :=
          if e = '"' then some ('"', cs2)
          else if e = '\\' then some ('\\', cs2)
          else if e = '/' then some ('/', cs2)
          else if e = 'b' then some ('\x08', cs2)
          else if e = 'f' then some ('\x0c', cs2)
          else if e = 'n' then some ('\n', cs2)
          else if e = 'r' then some ('\r', cs2)
          else if e = 't' then some ('\t', cs2)
          else if e = 'u' then
            match cs2 with
            | h1 :: h2 :: h3 :: h4 :: cs3 => do
              let a ← parseHex h1
              let b ← parseHex h2
              let c3 ← parseHex h3
              let d ← parseHex h4
              pure (Char.ofNat (((a * 16 + b) * 16 + c3) * 16 + d), cs3)
            | _ => none
          else none
        match esc with
        | some (ch, rest) =>
          match parseJsonStringBody fuel rest with
          | some (s, r) => some (ch :: s, r)
          | none => none
        | none => none
    else if c.toNat < 32 then none
    else
      match parseJsonStringBody fuel cs with
      | some (s, r) => some (c :: s, r)
      | none => none

/-- Parse a JSON number (sign, integer part without leading zeros,
optional fraction, optional exponent). -/
def parseJsonNumber (cs : Chars) : Option (ℚ × Chars) :=
  let signSplit : Bool × Chars :=
    match cs with
    | '-' :: r => (true, r)
    | _ => (false, cs)
  let neg := signSplit.1
  let (ds, cs2) := takeDigits signSplit.2
  if ds = [] then none
  else if 1 < ds.length ∧ ds.headI = '0' then none
  else
    let fracSplit : Option (ℚ × Chars) :=
      match cs2 with
      | '.' :: r =>
        let (fs, r2) := takeDigits r
        if fs = [] then none
        else some ((digitsVal fs : ℚ) / 10 ^ fs.length, r2)
      | _ => some ((0 : ℚ), cs2)
    match fracSplit with
    | none => none
    | some (frac, cs3) =>
      let expSplit : Option (ℤ × Chars) :=
        match cs3 with
        | e :: r =>
          if e = 'e' ∨ e = 'E' then
            let esignSplit : ℤ × Chars :=
              match r with
              | '+' :: rr => (1, rr)
              | '-' :: rr => (-1, rr)
              | _ => (1, r)
            let (es, r2) := takeDigits esignSplit.2
            if es = [] then none else some (esignSplit.1 * (digitsVal es : ℤ), r2)
          else some ((0 : ℤ), cs3)
        | [] => some ((0 : ℤ), cs3)
      match expSplit with
      | none => none
      | some (ex, cs4) =>
        let mag : ℚ := ((digitsVal ds : ℚ) + frac) * (10 : ℚ) ^ ex
        some (if neg then -mag else mag, cs4)

mutual

/-- Parse one JSON value after skipping leading whitespace. -/
def parseJsonVal : ℕ → Chars → Option (Json × Chars)
  | 0, _ => none
  | fuel + 1, cs =>
    match jsSkipWs cs with
    | [] => none
    | c :: r =>
      if c = '"' then
        match parseJsonStringBody (r.length + 1) r with
        | some (s, rest) => some (Json.str s, rest)
        | none => none
      else if c = '[' then
        match jsSkipWs r with
        | ']' :: rest => some (Json.arr JsonArr.nil, rest)
        | _ =>
          match parseJsonElems fuel r with
          | some (vs, rest) => some (Json.arr (arrOfList vs), rest)
          | none => none
      else if c = lbrace then
        match jsSkipWs r with
        | c2 :: rest => if c2 = rbrace then some (Json.obj JsonObj.nil, rest) else
            match parseJsonMembers fuel r with
            | some (kvs, rest2) =>
              some (Json.obj (objOfList (kvs.foldl (fun acc kv => jset acc kv.1 kv.2) [])), rest2)
            | none => none
        | [] => none
      else if "true".data.isPrefixOf (c :: r) then some (Json.bool true, (c :: r).drop 4)
      else if "false".data.isPrefixOf (c :: r) then some (Json.bool false, (c :: r).drop 5)
      else if "null".data.isPrefixOf (c :: r) then some (Json.null, (c :: r).drop 4)
      else if c = '-' ∨ c.isDigit then
        match parseJsonNumber (c :: r) with
        | some (q, rest) => some (Json.num q, rest)
        | none => none
      else none

/-- Parse comma-separated array elements up to the closing bracket
(called when the array is known to be nonempty). -/
def parseJsonElems : ℕ → Chars → Option (List Json × Chars)
  | 0, _ => none
  | fuel + 1, cs =>
    match parseJsonVal fuel cs with
    | none => none
    | some (v, r1) =>
      match jsSkipWs r1 with
      | ',' :: r2 =>
        match parseJsonElems fuel r2 with
        | some (vs, r3) => some (v :: vs, r3)
        | none => none
      | ']' :: r2 => some ([v], r2)
      | _ => none

/-- Parse comma-separated `"key": value` members up to the closing brace
(called when the object is known to be nonempty); returns the raw pair
list in source order. -/
def parseJsonMembers : ℕ → Chars → Option (List (String × Json) × Chars)
  | 0, _ => none
  | fuel + 1, cs =>
    match jsSkipWs cs with
    | '"' :: r1 =>
      match parseJsonStringBody (r1.length + 1) r1 with
      | some (k, r2) =>
        match jsSkipWs r2 with
        | ':' :: r3 =>
          match parseJsonVal fuel r3 with
          | none => none
          | some (v, r4) =>
            match jsSkipWs r4 with
            | ',' :: r5 =>
              match parseJsonMembers fuel r5 with
              | some (kvs, r6) => some ((String.mk k, v) :: kvs, r6)
              | none => none
            | c2 :: r5 => if c2 = rbrace then some ([(String.mk k, v)], r5) else none
            | [] => none
        | _ => none
      | none => none
    | _ => none

end

/-- Model of `json.loads`: parse one value and reject trailing data. -/
def json_loads (cs : Chars) : Option Json :=
  match parseJsonVal (cs.length + 1) cs with
  | some (v, rest) => if jsSkipWs rest = [] then some v else none
  | none => none

/-! ## The repair heuristics of `safe_extract_json`

Each `re.sub` of the source is modelled by a left-to-right scanner that at
every position either rewrites a match of the (concrete, fixed) pattern
and continues after it, or copies one character — the semantics of
`re.sub` with non-overlapping leftmost matches. -/

/-- Whitespace class of Python's `re` pattern `\s` on ASCII text. -/
def reIsSpace (c : Char) : Bool :=
  c = ' ' ∨ c = '\t' ∨ c = '\n' ∨ c = '\r' ∨ c = '\x0b' ∨ c = '\x0c'

/-- Maximal leading run of `\s` characters. -/
def takeSpaces : Chars → Chars × Chars
  | [] => ([], [])
  | c :: cs =>
    if reIsSpace c then
      let (d, r) := takeSpaces cs
      (c :: d, r)
    else ([], c :: cs)

/-- Split a whitespace run at its last newline: the prefix through that
newline (what `\s*\n` consumes greedily) and the remainder. -/
def lastNewlineSplit : Chars → Option (Chars × Chars)
  | [] => none
  | c :: cs =>
    match lastNewlineSplit cs with
    | some (p, q) => some (c :: p, q)
    | none => if c = '\n' then some ([c], cs) else none

/-- One rewriting pass: at each position try the matcher; on a match, emit
its replacement and resume after the consumed text, else copy a character.
Fuel is the text length (each step consumes at least one character). -/
def subScan (tryFn : Chars → Option (Chars × Chars)) : ℕ → Chars → Chars
  | 0, cs => cs
  | _ + 1, [] => []
  | fuel + 1, c :: rest =>
    match tryFn (c :: rest) with
    | some (rep, rem) => rep ++ subScan tryFn fuel rem
    | none => c :: subScan tryFn fuel rest

/-- Run a rewriting pass over a whole text (models one `re.sub` call). -/
def runSub (tryFn : Chars → Option (Chars × Chars)) (cs : Chars) : Chars :=
  subScan tryFn cs.length cs

/-- Matcher for `re.sub(r'(\d+\.\d+),(\s*\n)', r'\1",\2', ...)`: a decimal
number followed by a comma and a whitespace run ending in a newline gets a
quote inserted before the comma. -/
def trySub1 (cs : Chars) : Option (Chars × Chars) :=
  let (d1, r1) := takeDigits cs
  if d1.isEmpty then none
  else
    match r1 with
    | '.' :: r2 =>
      let (d2, r3) := takeDigits r2
      if d2.isEmpty then none
      else
        match r3 with
        | ',' :: r4 =>
          let (ws, r5) := takeSpaces r4
          match lastNewlineSplit ws with
          | some (wsPre, wsPost) =>
            some (d1 ++ '.' :: d2 ++ '"' :: ',' :: wsPre, wsPost ++ r5)
          | none => none
        | _ => none
    | _ => none

/-- Matcher for `re.sub(r'(\d+\.\d+)(\s*\n\s*"end")', r'\1"\2', ...)`: a
decimal number separated from a quoted `end` key by whitespace containing
a newline gets a quote appended. -/
def trySub2 (cs : Chars) : Option (Chars × Chars) :=
  let (d1, r1) := takeDigits cs
  if d1.isEmpty then none
  else
    match r1 with
    | '.' :: r2 =>
      let (d2, r3) := takeDigits r2
      if d2.isEmpty then none
      else
        let (ws, r4) := takeSpaces r3
        if ('\n' ∈ ws) ∧ "\"end\"".data.isPrefixOf r4 then
          some (d1 ++ '.' :: d2 ++ '"' :: (ws ++ "\"end\"".data), r4.drop 5)
        else none
    | _ => none

/-- Matcher for `re.sub(r',\s*([\]}])', r'\1', ...)`: a comma (and
whitespace) before a closing bracket or brace is dropped. -/
def tryTrailComma (cs : Chars) : Option (Chars × Chars) :=
  match cs with
  | ',' :: r1 =>
    let (_, r2) := takeSpaces r1
    match r2 with
    | c :: r3 => if c = ']' ∨ c = rbrace then some ([c], r3) else none
    | [] => none
  | _ => none

/-- Matcher for the aggressive repair
`re.sub(r'"(start|end)":\s*"(\d+:\d+\.\d+)([,\n])', r'"\1": "\2"\3', ...)`:
an unterminated quoted timestamp value of a `start`/`end` key, ended by a
comma or newline, gets its closing quote restored (and the separator after
the key normalised to one space, per the replacement text). -/
def tryAggressive (cs : Chars) : Option (Chars × Chars) :=
  match cs with
  | '"' :: r0 =>
    let keySplit : Option (Chars × Chars) :=
      if "start\"".data.isPrefixOf r0 then some ("start".data, r0.drop 6)
      else if "end\"".data.isPrefixOf r0 then some ("end".data, r0.drop 4)
      else none
    match keySplit with
    | none => none
    | some (key, r1) =>
      match r1 with
      | ':' :: r2 =>
        let (_, r3) := takeSpaces r2
        match r3 with
        | '"' :: r4 =>
          let (a, r5) := takeDigits r4
          if a.isEmpty then none
          else
            match r5 with
            | ':' :: r6 =>
              let (b, r7) := takeDigits r6
              if b.isEmpty then none
              else
                match r7 with
                | '.' :: r8 =>
                  let (c, r9) := takeDigits r8
                  if c.isEmpty then none
                  else
                    match r9 with
                    | t :: r10 =>
                      if t = ',' ∨ t = '\n' then
                        some ('"' :: key ++ '"' :: ':' :: ' ' :: '"' ::
                          (a ++ ':' :: b ++ '.' :: c) ++ '"' :: [t], r10)
                      else none
                    | [] => none
                | _ => none
            | _ => none
        | _ => none
      | _ => none
  | _ => none

/-! ## Fence extraction and structural fixes of `safe_extract_json` -/

/-- The characters of the opening fence marker. -/
def fenceMark : Chars := [btick, btick, btick, 'j', 's', 'o', 'n']

/-- The characters of a bare fence marker. -/
def ticksMark : Chars := [btick, btick, btick]

/-- Python's `str.strip()`: drop leading and trailing whitespace. -/
def pyStrip (cs : Chars) : Chars :=
  ((cs.dropWhile reIsSpace).reverse.dropWhile reIsSpace).reverse

/-- Text after the first occurrence of the opening fence marker, if any. -/
def dropAfterFence : Chars → Option Chars
  | [] => none
  | c :: cs =>
    if fenceMark.isPrefixOf (c :: cs) then some ((c :: cs).drop 7)
    else dropAfterFence cs

/-- Prefix of the text before its first bare fence marker, if one occurs. -/
def takeUntilTicks : Chars → Option Chars
  | [] => none
  | c :: cs =>
    if ticksMark.isPrefixOf (c :: cs) then some []
    else (takeUntilTicks cs).map (c :: ·)

/-- The fenced-block extraction of `safe_extract_json`: the first regex
requires a closing fence and takes the (stripped) text between the
markers; if no closing fence exists anywhere, the fallback regex takes
everything after the opening marker. -/
def extractFenced (content : Chars) : Option Chars :=
  (dropAfterFence content).map fun rest =>
    match takeUntilTicks rest with
    | some pre => pyStrip pre
    | none => pyStrip rest

/-- Strip control characters, keeping `\n`, `\r`, `\t` (the source's
`''.join(char for char in json_str if ord(char) >= 32 or char in '\n\r\t')`). -/
def ctrlFilter (cs : Chars) : Chars :=
  cs.filter fun c => 32 ≤ c.toNat ∨ c = '\n' ∨ c = '\r' ∨ c = '\t'

/-- The text up to and including its last closing brace, if any. -/
def takeToLastBrace : Chars → Option Chars
  | [] => none
  | c :: cs =>
    match takeToLastBrace cs with
    | some p => some (c :: p)
    | none => if c = rbrace then some [c] else none

/-- Truncation salvage: if the text does not end with `]`, cut back to the
last complete object (last `}`) and append a closing bracket; if there is
no `}` the text is left unchanged. -/
def truncFix (cs : Chars) : Chars :=
  if cs.getLast? = some ']' then cs
  else
    match takeToLastBrace cs with
    | some pre => pre ++ ['\n', ']']
    | none => cs

/-- Array wrapping: unless the text both starts with `[` and ends with
`]`, wrap it in brackets. -/
def wrapFix (cs : Chars) : Chars :=
  if cs.head? = some '[' ∧ cs.getLast? = some ']' then cs else '[' :: (cs ++ [']'])

/-! ## Post-parse validation and deduplication -/

/-- Python's `a or b` on two values (the truthy one, else the second). -/
def pyOr (a b : Json) : Json := if a.truthy then a else b

/-- The per-entry validation of `safe_extract_json`: require `start` and
`end` (else drop); accept `word`, or synthesize it from `Text`/`text` via
`item["word"] = item.get("Text") or item.get("text")` when one of those
keys is present; else drop. -/
def validateItem (item : JObj) : Option JObj :=
  if jhas item "start" && jhas item "end" then
    if !(jhas item "word") && (jhas item "Text" || jhas item "text") then
      some (jset item "word" (pyOr (jget item "Text") (jget item "text")))
    else if !(jhas item "word") then none
    else some item
  else none

/-- Substring test (`"start" in item` when `item` is a string). -/
def containsSub (pat : Chars) : Chars → Bool
  | [] => pat.isEmpty
  | c :: cs => pat.isPrefixOf (c :: cs) || containsSub pat cs

/-- The validation loop of `safe_extract_json` over the parsed array.
A dict element goes through `validateItem`; a string element hits
Python's substring semantics for `k in item` (and would then crash on the
`item["word"]` assignment, or be skipped); any other element type makes
`"start" in item` raise `TypeError`. Only dict elements occur in the
theorems below. -/
def validateItems : List Json → Except String (List JObj)
  | [] => .ok []
  | Json.obj kvs :: rest =>
    match validateItems rest with
    | .error e => .error e
    | .ok tail =>
      match validateItem kvs.toList with
      | some v => .ok (v :: tail)
      | none => .ok tail
  | Json.str s :: rest =>
    if containsSub "start".data s && containsSub "end".data s then
      .error "TypeError: string item cannot be assigned a word field"
    else
      validateItems rest
  | _ :: _ => .error "TypeError: array element is not a container"

/-- The `(start, end)` timestamp key of an entry (`item.get` semantics). -/
def dedupKey (item : JObj) : Json × Json := (jget item "start", jget item "end")

/-- The f-string `f"{a} {b}"` over two `word` values. -/
def concatWords (a b : Json) : Json := Json.str (pyStr a ++ ' ' :: pyStr b)

/-- On a repeated `(start, end)` key, update the first entry of the
accumulator carrying that key: if its `word` differs from the new item's,
concatenate the two words, else leave it unchanged (an empty dict — never
produced by validation — is Python-falsy and also left unchanged). -/
def dedupMergeFirst (item : JObj) : List JObj → List JObj
  | [] => []
  | x :: xs =>
    if dedupKey x = dedupKey item then
      (if !x.isEmpty && !(jget x "word" = jget item "word") then
        jset x "word" (concatWords (jget x "word") (jget item "word"))
      else x) :: xs
    else x :: dedupMergeFirst item xs

/-- The loop of `deduplicate_entries`: keep the first entry per
`(start, end)` key, folding later same-key entries into it. -/
def dedupGo : List (Json × Json) → List JObj → List JObj → List JObj
  | _, acc, [] => acc
  | seen, acc, item :: rest =>
    if dedupKey item ∈ seen then dedupGo seen (dedupMergeFirst item acc) rest
    else dedupGo (dedupKey item :: seen) (acc ++ [item]) rest

/-- Model of `deduplicate_entries`. -/
def deduplicate_entries (items : List JObj) : List JObj := dedupGo [] [] items

/-- The post-parse stage of `safe_extract_json`: iterate over the parsed
payload (an array iterates its elements; a dict iterates its keys, which
are strings), validate each item, raise when zero valid items remain,
else deduplicate. -/
def validateAndDedup : Json → Except String (List JObj)
  | Json.arr items =>
    match validateItems items.toList with
    | .error e => .error e
    | .ok valid =>
      if valid.isEmpty then .error "No valid items found in JSON data"
      else .ok (deduplicate_entries valid)
  | Json.obj kvs =>
    match validateItems (kvs.toList.map (fun kv => Json.str kv.1.data)) with
    | .error e => .error e
    | .ok valid =>
      if valid.isEmpty then .error "No valid items found in JSON data"
      else .ok (deduplicate_entries valid)
  | _ => .error "TypeError: parsed payload is not iterable"

/-- Model of `safe_extract_json`: extract the fenced block, apply the two
quote-repair substitutions, strip control characters, salvage a truncated
array, wrap in brackets, drop trailing commas, parse (retrying once after
the aggressive timestamp repair), then validate and deduplicate; raises
(returns `.error`) when no block is found, both parses fail, or no valid
entries remain. -/
def safe_extract_json (content : Chars) : Except String (List JObj) :=
  match extractFenced content with
  | none => .error "No JSON block found in content."
  | some s0 =>
    let s1 := runSub trySub1 s0
    let s2 := runSub trySub2 s1
    let s3 := ctrlFilter s2
    let s4 := truncFix s3
    let s5 := wrapFix s4
    let s6 := runSub tryTrailComma s5
    let parsed : Option Json :=
      match json_loads s6 with
      | some jd => some jd
      | none => json_loads (runSub tryAggressive s6)
    match parsed with
    | none => .error "Failed to parse JSON after repair attempts"
    | some jd => validateAndDedup jd

/-! ## Chunk merging, speed adjustment, retry, annotation assembly -/

/-- The module constant `AUDIO_CHUNKING_OFFSET = 100` (seconds). -/
def AUDIO_CHUNKING_OFFSET : ℚ := 100

/-- The per-entry body of the `merge_json_with_offset` loop:
`entry.copy()` with `start` and `end` re-rendered after adding the chunk
offset; a missing or non-string timestamp raises (is `none`). -/
def shiftEntry (offset_seconds : ℚ) (e : JObj) : Option JObj :=
  match jget e "start", jget e "end" with
  | Json.str s, Json.str t => do
    let sv ← timestamp_to_seconds s
    let tv ← timestamp_to_seconds t
    pure (jset (jset e "start" (Json.str (seconds_to_timestamp (sv + offset_seconds))))
      "end" (Json.str (seconds_to_timestamp (tv + offset_seconds))))
  | _, _ => none

/-- Model of `merge_json_with_offset`: sort the chunk dictionary's items
by index (Python's stable `sorted` by key), shift every entry of chunk `i`
by `i * time_offset` seconds, and concatenate in that order. -/
def merge_json_with_offset (data : List (ℕ × List JObj)) (time_offset : ℚ) :
    Option (List JObj) :=
  ((List.insertionSort (fun a b : ℕ × List JObj => a.1 ≤ b.1) data).mapM
    (fun p : ℕ × List JObj => p.2.mapM (shiftEntry ((p.1 : ℚ) * time_offset)))).map
    List.flatten

/-- The merge performed by `transcribe_chunks` on the per-chunk results
dictionary: `merge_json_with_offset(results, AUDIO_CHUNKING_OFFSET)`. -/
def transcribe_chunks_merge (results : List (ℕ × List JObj)) : Option (List JObj) :=
  merge_json_with_offset results AUDIO_CHUNKING_OFFSET

/-- The per-entry body of `adjust_timestamps_for_speed`: `entry.copy()`
with both timestamps multiplied by the speed factor and re-rendered. -/
def adjustEntry (speed_factor : ℚ) (e : JObj) : Option JObj :=
  match jget e "start", jget e "end" with
  | Json.str s, Json.str t => do
    let sv ← timestamp_to_seconds s
    let tv ← timestamp_to_seconds t
    pure (jset (jset e "start" (Json.str (seconds_to_timestamp (sv * speed_factor))))
      "end" (Json.str (seconds_to_timestamp (tv * speed_factor))))
  | _, _ => none

/-- Model of `adjust_timestamps_for_speed`. -/
def adjust_timestamps_for_speed (json_data : List JObj) (speed_factor : ℚ) :
    Option (List JObj) :=
  json_data.mapM (adjustEntry speed_factor)

/-- Model of `retry_with_backoff`. The call at attempt `k` (0-based) is an
oracle `results k`; the jitter drawn before the sleep after attempt `k` is
an oracle `jitter k` (`random.uniform(0, delay * 0.1)`). Returns the
outcome, the list of sleep durations, and the number of calls made;
`none` models Python's fall-through `return None` when `max_retries = 0`
(the fuel equals the remaining loop iterations). -/
def retryGo {E A : Type} (results : ℕ → Except E A) (jitter : ℕ → ℚ)
    (max_retries : ℕ) (base_delay max_delay : ℚ) :
    ℕ → ℕ → Option (Except E A × List ℚ × ℕ)
  | _, 0 => none
  | attempt, fuel + 1 =>
    match results attempt with
    | .ok a => some (.ok a, [], attempt + 1)
    | .error e =>
      if attempt = max_retries - 1 then some (.error e, [], attempt + 1)
      else
        let delay := min max_delay (base_delay * 2 ^ attempt)
        let total := delay + jitter attempt
        (retryGo results jitter max_retries base_delay max_delay (attempt + 1) fuel).map
          fun r => (r.1, total :: r.2.1, r.2.2)

/-- Model of `retry_with_backoff(func, max_retries, base_delay, max_delay)`
(the source defaults are `5`, `15.0`, `300.0`). -/
def retry_with_backoff {E A : Type} (results : ℕ → Except E A) (jitter : ℕ → ℚ)
    (max_retries : ℕ) (base_delay max_delay : ℚ) : Option (Except E A × List ℚ × ℕ) :=
  retryGo results jitter max_retries base_delay max_delay 0 max_retries

/-- The timestamp reading of the Annotation Assembler applied to a raw
`start`/`end` value: a string goes through the `":" in str(...)` branch
logic; a number is `float`-converted to itself; anything else raises. -/
def annValueSeconds : Json → Option ℚ
  | Json.str s => annotationSeconds s
  | Json.num q => some q
  | _ => none

/-- The per-entry body of the annotation loop in `process_diarization`:
parse both timestamps, clamp `end` (and only `end`) to the audio duration,
format both with `format_timestamp_precise`, and wrap the word
(`word_data.get("word", "")`) in a one-element transcription list. -/
def processWord (audio_duration : ℚ) (word_data : JObj) :
    Option (Chars × Chars × Json) := do
  let start_seconds ← annValueSeconds (jget word_data "start")
  let end_parsed ← annValueSeconds (jget word_data "end")
  let end_seconds := if end_parsed > audio_duration then audio_duration else end_parsed
  pure (format_timestamp_precise start_seconds, format_timestamp_precise end_seconds,
    (jlookup word_data "word").getD (Json.str []))

/-- The annotation list built by `process_diarization` from the merged
word entries and the measured audio duration. -/
def process_diarization_annotations (audio_duration : ℚ) (all_words : List JObj) :
    Option (List (Chars × Chars × Json)) :=
  all_words.mapM (processWord audio_duration)

/-! ## Dictionary and deduplication lemmas -/

theorem jget_jset_self (o : JObj) (k : String) (v : Json) : jget (jset o k v) k = v := by
  induction o with
  | nil => simp [jset, jget, jlookup]
  | cons kv rest ih =>
    by_cases h : kv.1 = k
    · simp [jset, h, jget, jlookup]
    · simp only [jset, h, if_false]
      simpa [jget, jlookup, h] using ih

theorem jget_jset_ne (o : JObj) (k : String) (v : Json) (q : String) (hq : q ≠ k) :
    jget (jset o k v) q = jget o q := by
  have hkq : k ≠ q := Ne.symm hq
  induction o with
  | nil => simp [jset, jget, jlookup, hkq]
  | cons kv rest ih =>
    by_cases h : kv.1 = k
    · simp [jset, h, jget, jlookup, hkq]
    · by_cases h2 : kv.1 = q
      · simp [jset, h, jget, jlookup, h2, hq]
      · simp only [jset, h, if_false]
        simpa [jget, jlookup, h2] using ih

theorem jhas_jset (o : JObj) (k : String) (v : Json) (q : String) :
    jhas (jset o k v) q = (q = k || jhas o q) := by
  induction o with
  | nil =>
    by_cases h : q = k
    · simp [jset, jhas, jlookup, h]
    · simp [jset, jhas, jlookup, h, Ne.symm h]
  | cons kv rest ih =>
    by_cases h : kv.1 = k
    · by_cases h2 : q = k
      · simp [jset, jhas, jlookup, h, h2]
      · have hx : kv.1 ≠ q := by rw [h]; exact Ne.symm h2
        simp [jset, jhas, jlookup, h, h2, hx, Ne.symm h2]
    · by_cases h2 : kv.1 = q
      · by_cases hqk : q = k <;> simp [jset, jhas, jlookup, h, h2, hqk]
      · simp only [jset, h, if_false]
        simpa [jhas, jlookup, h2] using ih

theorem dedupKey_jset_word (x : JObj) (v : Json) :
    dedupKey (jset x "word" v) = dedupKey x := by
  unfold dedupKey
  rw [jget_jset_ne _ _ _ _ (by decide), jget_jset_ne _ _ _ _ (by decide)]

theorem dedupMergeFirst_keys (item : JObj) (acc : List JObj) :
    (dedupMergeFirst item acc).map dedupKey = acc.map dedupKey := by
  induction acc with
  | nil => rfl
  | cons x xs ih =>
    by_cases h : dedupKey x = dedupKey item
    · simp only [dedupMergeFirst, h, if_true, List.map_cons]
      by_cases h2 : !x.isEmpty && !(jget x "word" = jget item "word")
      · simp [h2, dedupKey_jset_word, h]
      · simp [h2, h]
    · simp only [dedupMergeFirst, h, if_false, List.map_cons, ih]

theorem dedupGo_spec (items : List JObj) : ∀ (seen : List (Json × Json)) (acc : List JObj),
    (acc.map dedupKey).Nodup →
    (∀ k, k ∈ seen ↔ k ∈ acc.map dedupKey) →
    ((dedupGo seen acc items).map dedupKey).Nodup ∧
    (∀ k, k ∈ (dedupGo seen acc items).map dedupKey ↔
      k ∈ acc.map dedupKey ∨ k ∈ items.map dedupKey) := by
  induction items with
  | nil =>
    intro seen acc hnd hiff
    exact ⟨hnd, fun k => by simp [dedupGo]⟩
  | cons item rest ih =>
    intro seen acc hnd hiff
    by_cases h : dedupKey item ∈ seen
    · simp only [dedupGo, h, if_true]
      have hkeys := dedupMergeFirst_keys item acc
      obtain ⟨h1, h2⟩ := ih seen (dedupMergeFirst item acc) (by rw [hkeys]; exact hnd)
        (fun k => by rw [hkeys]; exact hiff k)
      refine ⟨h1, fun k => ?_⟩
      rw [h2 k, hkeys]
      have hin : dedupKey item ∈ acc.map dedupKey := (hiff _).mp h
      simp only [List.map_cons, List.mem_cons]
      constructor
      · rintro (hk | hk)
        · exact Or.inl hk
        · exact Or.inr (Or.inr hk)
      · rintro (hk | hk | hk)
        · exact Or.inl hk
        · exact Or.inl (hk ▸ hin)
        · exact Or.inr hk
    · simp only [dedupGo, h, if_false]
      have hnotacc : dedupKey item ∉ acc.map dedupKey := fun hc => h ((hiff _).mpr hc)
      obtain ⟨h1, h2⟩ := ih (dedupKey item :: seen) (acc ++ [item])
        (by
          rw [List.map_append]
          simp only [List.map_cons, List.map_nil]
          rw [List.nodup_append]
          exact ⟨hnd, List.nodup_singleton _, by simpa using hnotacc⟩)
        (fun k => by
          rw [List.map_append]
          simp only [List.mem_cons, List.mem_append, List.map_cons, List.map_nil,
            List.mem_singleton]
          rw [hiff k]
          tauto)
      refine ⟨h1, fun k => ?_⟩
      rw [h2 k, List.map_append]
      simp only [List.mem_append, List.map_cons, List.map_nil, List.mem_singleton,
        List.mem_cons]
      tauto

theorem deduplicate_keys_nodup (items : List JObj) :
    ((deduplicate_entries items).map dedupKey).Nodup :=
  (dedupGo_spec items [] [] (by simp) (by simp)).1

theorem deduplicate_keys_same (items : List JObj) :
    ∀ k, k ∈ (deduplicate_entries items).map dedupKey ↔ k ∈ items.map dedupKey := by
  intro k
  have := (dedupGo_spec items [] [] (by simp) (by simp)).2 k
  simpa [deduplicate_entries] using this

theorem dedupGo_length_ge (items : List JObj) :
    ∀ (seen : List (Json × Json)) (acc : List JObj),
      acc.length ≤ (dedupGo seen acc items).length := by
  induction items with
  | nil => intro seen acc; simp [dedupGo]
  | cons item rest ih =>
    intro seen acc
    by_cases h : dedupKey item ∈ seen
    · simp only [dedupGo, h, if_true]
      have hlen : (dedupMergeFirst item acc).length = acc.length := by
        have := congrArg List.length (dedupMergeFirst_keys item acc)
        simpa using this
      calc acc.length = (dedupMergeFirst item acc).length := hlen.symm
        _ ≤ _ := ih seen (dedupMergeFirst item acc)
    · simp only [dedupGo, h, if_false]
      calc acc.length ≤ (acc ++ [item]).length := by simp
        _ ≤ _ := ih (dedupKey item :: seen) (acc ++ [item])

theorem deduplicate_ne_nil (x : JObj) (xs : List JObj) :
    deduplicate_entries (x :: xs) ≠ [] := by
  unfold deduplicate_entries
  intro hc
  have hstep : dedupGo [] [] (x :: xs) = dedupGo [dedupKey x] [x] xs := by
    simp [dedupGo]
  rw [hstep] at hc
  have hlen := dedupGo_length_ge xs [dedupKey x] [x]
  rw [hc] at hlen
  simp at hlen

theorem deduplicate_two_ne (e1 e2 : JObj) (hk : dedupKey e1 = dedupKey e2)
    (hne : e1 ≠ []) (hw : jget e1 "word" ≠ jget e2 "word") :
    deduplicate_entries [e1, e2] =
      [jset e1 "word" (concatWords (jget e1 "word") (jget e2 "word"))] := by
  have he : e1.isEmpty = false := by
    cases e1 with
    | nil => exact absurd rfl hne
    | cons a t => rfl
  unfold deduplicate_entries
  simp [dedupGo, dedupMergeFirst, hk, hw, he]

theorem deduplicate_two_eq (e1 e2 : JObj) (hk : dedupKey e1 = dedupKey e2)
    (hw : jget e1 "word" = jget e2 "word") :
    deduplicate_entries [e1, e2] = [e1] := by
  unfold deduplicate_entries
  simp [dedupGo, dedupMergeFirst, hk, hw]

theorem toList_arrOfList (l : List Json) : (arrOfList l).toList = l := by
  induction l with
  | nil => rfl
  | cons a t ih => simp [arrOfList, JsonArr.toList, ih]

theorem toList_objOfList (o : JObj) : (objOfList o).toList = o := by
  induction o with
  | nil => rfl
  | cons kv t ih => simp [objOfList, JsonObj.toList, ih]

theorem mapM_option_eq_map {α β : Type} (f : α → Option β) (g : α → β) (l : List α)
    (h : ∀ a ∈ l, f a = some (g a)) : l.mapM f = some (l.map g) := by
  induction l with
  | nil => rfl
  | cons a t ih =>
    rw [List.mapM_cons, h a (List.mem_cons_self a t),
      ih (fun x hx => h x (List.mem_cons_of_mem a hx))]
    rfl

/-! ## Evaluation lemmas for concrete timestamp strings

These compute the string functions at millisecond-granular values, which
the kernel cannot evaluate directly (rational arithmetic with Mathlib's
instances does not reduce). -/

theorem floor_add_frac (k : ℤ) (x : ℚ) (h0 : 0 ≤ x) (h1 : x < 1) :
    ⌊(k : ℚ) + x⌋ = k := by
  rw [add_comm, Int.floor_add_int]
  have hx : ⌊x⌋ = 0 := by
    rw [Int.floor_eq_zero_iff]
    exact ⟨h0, h1⟩
  rw [hx, zero_add]

theorem timestamp_to_seconds_msform (w w2 m a b : ℕ) (hb : b < 1000) :
    timestamp_to_seconds (padNat w m ++ ':' :: (padNat w2 a ++ '.' :: padNat 3 b)) =
      some (((60000 * m + 1000 * a + b : ℕ) : ℚ) / 1000) := by
  unfold timestamp_to_seconds
  rw [splitOnChar_append _ _ _ (colon_not_mem_padNat w m)]
  have hcol : ':' ∉ padNat w2 a ++ '.' :: padNat 3 b := by
    intro hc
    rcases List.mem_append.mp hc with h | h
    · exact colon_not_mem_padNat _ _ h
    · rcases List.mem_cons.mp h with h' | h'
      · exact absurd h' (by decide)
      · exact colon_not_mem_padNat _ _ h'
  rw [splitOnChar_no_sep _ _ hcol]
  simp only [parseNatChars_padNat,
    parseDecChars_pad_pair w2 3 a b (by norm_num) (by norm_num [hb]),
    Option.bind_eq_bind, Option.some_bind, Option.pure_def]
  congr 1
  push_cast
  field_simp
  ring

theorem seconds_to_timestamp_msform (m r : ℕ) (hr : r < 60000) :
    seconds_to_timestamp (((60000 * m + r : ℕ) : ℚ) / 1000) =
      padNat 2 m ++ ':' :: (padNat 2 (r / 1000) ++ '.' :: padNat 3 (r % 1000)) := by
  have hfrac0 : (0 : ℚ) ≤ (r : ℚ) / 60000 := by positivity
  have hfrac1 : (r : ℚ) / 60000 < 1 := by
    rw [div_lt_one (by norm_num)]
    exact_mod_cast hr
  have hsdiv : (((60000 * m + r : ℕ) : ℚ) / 1000) / 60 = ((m : ℤ) : ℚ) + (r : ℚ) / 60000 := by
    push_cast
    ring
  have hfloor : ⌊(((60000 * m + r : ℕ) : ℚ) / 1000) / 60⌋ = (m : ℤ) := by
    rw [hsdiv]
    exact floor_add_frac _ _ hfrac0 hfrac1
  have hmod : pyMod (((60000 * m + r : ℕ) : ℚ) / 1000) 60 = (r : ℚ) / 1000 := by
    unfold pyMod
    rw [hfloor]
    push_cast
    ring
  unfold seconds_to_timestamp formatFixed
  rw [hfloor, hmod]
  have hround : round ((r : ℚ) / 1000 * 10 ^ 3) = (r : ℤ) := by
    have : (r : ℚ) / 1000 * 10 ^ 3 = ((r : ℤ) : ℚ) := by push_cast; ring
    rw [this, round_intCast]
  rw [hround]
  simp

theorem annotationSeconds_msform (w w2 m a b : ℕ) (hb : b < 1000) :
    annotationSeconds (padNat w m ++ ':' :: (padNat w2 a ++ '.' :: padNat 3 b)) =
      some (((60000 * m + 1000 * a + b : ℕ) : ℚ) / 1000) := by
  unfold annotationSeconds
  rw [if_pos (List.mem_append.mpr (Or.inr (List.mem_cons_self _ _)))]
  rw [splitOnChar_append _ _ _ (colon_not_mem_padNat w m)]
  have hcol : ':' ∉ padNat w2 a ++ '.' :: padNat 3 b := by
    intro hc
    rcases List.mem_append.mp hc with h | h
    · exact colon_not_mem_padNat _ _ h
    · rcases List.mem_cons.mp h with h' | h'
      · exact absurd h' (by decide)
      · exact colon_not_mem_padNat _ _ h'
  rw [splitOnChar_no_sep _ _ hcol]
  simp only [parseDecChars_padNat,
    parseDecChars_pad_pair w2 3 a b (by norm_num) (by norm_num [hb]),
    Option.bind_eq_bind, Option.some_bind, Option.pure_def]
  congr 1
  push_cast
  field_simp
  ring

theorem format_timestamp_precise_eval (hq m r : ℕ) (hm : m < 60) (hr : r < 60000000) :
    format_timestamp_precise (((3600000000 * hq + 60000000 * m + r : ℕ) : ℚ) / 1000000) =
      natChars hq ++ ':' ::
        (padNat 2 m ++ ':' :: (padNat 2 (r / 1000000) ++ '.' :: padNat 6 (r % 1000000))) := by
  set s : ℚ := ((3600000000 * hq + 60000000 * m + r : ℕ) : ℚ) / 1000000 with hsdef
  have hfr0 : (0 : ℚ) ≤ ((60000000 * m + r : ℕ) : ℚ) / 3600000000 := by positivity
  have hfr1 : ((60000000 * m + r : ℕ) : ℚ) / 3600000000 < 1 := by
    rw [div_lt_one (by norm_num)]
    have hsum : 60000000 * m + r < 3600000000 := by omega
    exact_mod_cast hsum
  have hdiv3600 : s / 3600 = ((hq : ℤ) : ℚ) + ((60000000 * m + r : ℕ) : ℚ) / 3600000000 := by
    rw [hsdef]
    push_cast
    ring
  have hfloorH : ⌊s / 3600⌋ = (hq : ℤ) := by
    rw [hdiv3600]
    exact floor_add_frac _ _ hfr0 hfr1
  have hmod3600 : pyMod s 3600 = ((60000000 * m + r : ℕ) : ℚ) / 1000000 := by
    unfold pyMod
    rw [hfloorH, hsdef]
    push_cast
    ring
  have hr0 : (0 : ℚ) ≤ (r : ℚ) / 60000000 := by positivity
  have hr1 : (r : ℚ) / 60000000 < 1 := by
    rw [div_lt_one (by norm_num)]
    exact_mod_cast hr
  have hdiv60 : pyMod s 3600 / 60 = ((m : ℤ) : ℚ) + (r : ℚ) / 60000000 := by
    rw [hmod3600]
    push_cast
    ring
  have hfloorM : ⌊pyMod s 3600 / 60⌋ = (m : ℤ) := by
    rw [hdiv60]
    exact floor_add_frac _ _ hr0 hr1
  have hsdiv60 : s / 60 = (((60 * hq + m : ℕ) : ℤ) : ℚ) + (r : ℚ) / 60000000 := by
    rw [hsdef]
    push_cast
    ring
  have hfloor60 : ⌊s / 60⌋ = ((60 * hq + m : ℕ) : ℤ) := by
    rw [hsdiv60]
    exact floor_add_frac _ _ hr0 hr1
  have hmod60 : pyMod s 60 = (r : ℚ) / 1000000 := by
    unfold pyMod
    rw [hfloor60, hsdef]
    push_cast
    ring
  unfold format_timestamp_precise formatFixed
  rw [hfloorH, hfloorM, hmod60]
  have hround : round ((r : ℚ) / 1000000 * 10 ^ 6) = (r : ℤ) := by
    have : (r : ℚ) / 1000000 * 10 ^ 6 = ((r : ℤ) : ℚ) := by push_cast; ring
    rw [this, round_intCast]
  rw [hround]
  simp

theorem parseDecChars_nonneg (cs : Chars) (q : ℚ) (h : parseDecChars cs = some q) :
    0 ≤ q := by
  unfold parseDecChars at h
  split at h
  · split at h
    · rw [Option.some_inj] at h
      rw [← h]
      positivity
    · exact absurd h (by simp)
  · split at h
    · rw [Option.some_inj] at h
      rw [← h]
      positivity
    · exact absurd h (by simp)
  · exact absurd h (by simp)

theorem timestamp_to_seconds_nonneg (cs : Chars) (v : ℚ)
    (h : timestamp_to_seconds cs = some v) : 0 ≤ v := by
  unfold timestamp_to_seconds at h
  split at h
  · rw [Option.bind_eq_bind] at h
    rcases Option.bind_eq_some.mp h with ⟨mv, hmv, h2⟩
    rcases Option.bind_eq_some.mp h2 with ⟨rv, hrv, h3⟩
    simp only [Option.pure_def, Option.some_inj] at h3
    rw [← h3]
    have := parseDecChars_nonneg _ _ hrv
    positivity
  · exact absurd h (by simp)

/-! ## Claim theorems -/

deriving instance DecidableEq for Except

/-- The model output of claim C1: an opening fence with no closing fence,
followed by a single object (missing the closing quote after the `start`
timestamp) and a closing bracket. -/
def c1_model_output : Chars :=
  "\x60\x60\x60json\n\x7b\"start\": \"00:05.120, \"end\": \"00:05.450\", \"word\": \"hi\"\x7d]".data

/-- C1: the claim states that `safe_extract_json` returns (does not raise)
a one-entry list for this input. In fact the function raises: the
array-wrapping step sees text that starts with a brace (not `[`) and ends
with `]`, so it wraps it and produces `[{...}]]` with a stray trailing
bracket; the aggressive quote repair then fixes the timestamp but both
`json.loads` calls still fail (the second with trailing data), and the
final `ValueError` propagates. This theorem evaluates the model at the
claim's exact input and shows the raise. -/
theorem c1_malformed_salvage_raises :
    safe_extract_json c1_model_output =
      .error "Failed to parse JSON after repair attempts" := by
  decide

/-- C3: `deduplicate_entries` keeps exactly one surviving entry per
`(start, end)` pair — the output's key list is duplicate-free and covers
exactly the input's keys; for a two-entry list sharing one key, differing
`word` values are space-concatenated onto the single survivor, and equal
`word` values leave exactly the first entry. -/
theorem c3_deduplicate_entries_spec :
    (∀ items : List JObj,
      ((deduplicate_entries items).map dedupKey).Nodup ∧
      ∀ k, k ∈ (deduplicate_entries items).map dedupKey ↔ k ∈ items.map dedupKey) ∧
    (∀ e1 e2 : JObj, e1 ≠ [] → dedupKey e1 = dedupKey e2 →
      (jget e1 "word" ≠ jget e2 "word" →
        deduplicate_entries [e1, e2] =
          [jset e1 "word" (concatWords (jget e1 "word") (jget e2 "word"))]) ∧
      (jget e1 "word" = jget e2 "word" → deduplicate_entries [e1, e2] = [e1])) := by
  refine ⟨fun items => ⟨deduplicate_keys_nodup items, deduplicate_keys_same items⟩,
    fun e1 e2 hne hk => ⟨fun hw => deduplicate_two_ne e1 e2 hk hne hw,
      fun hw => deduplicate_two_eq e1 e2 hk hw⟩⟩

/-- Witness for C3 at the claim's concrete words: inputs `"hello"` and
`"hello world"` at one timestamp pair merge into the single word
`"hello hello world"`, and two identical entries collapse to one. -/
theorem c3_deduplicate_entries_spec_witness :
    deduplicate_entries
      [[("start", Json.str "00:01.000".data), ("end", Json.str "00:02.000".data),
        ("word", Json.str "hello".data)],
       [("start", Json.str "00:01.000".data), ("end", Json.str "00:02.000".data),
        ("word", Json.str "hello world".data)]] =
      [[("start", Json.str "00:01.000".data), ("end", Json.str "00:02.000".data),
        ("word", Json.str "hello hello world".data)]] ∧
    deduplicate_entries
      [[("start", Json.str "00:01.000".data), ("end", Json.str "00:02.000".data),
        ("word", Json.str "x".data)],
       [("start", Json.str "00:01.000".data), ("end", Json.str "00:02.000".data),
        ("word", Json.str "x".data)]] =
      [[("start", Json.str "00:01.000".data), ("end", Json.str "00:02.000".data),
        ("word", Json.str "x".data)]] := by
  constructor
  · have h := (c3_deduplicate_entries_spec.2
      [("start", Json.str "00:01.000".data), ("end", Json.str "00:02.000".data),
        ("word", Json.str "hello".data)]
      [("start", Json.str "00:01.000".data), ("end", Json.str "00:02.000".data),
        ("word", Json.str "hello world".data)]
      (by decide) (by decide)).1 (by decide)
    rw [h]
    decide
  · exact (c3_deduplicate_entries_spec.2
      [("start", Json.str "00:01.000".data), ("end", Json.str "00:02.000".data),
        ("word", Json.str "x".data)]
      [("start", Json.str "00:01.000".data), ("end", Json.str "00:02.000".data),
        ("word", Json.str "x".data)]
      (by decide) (by decide)).2 (by decide)

theorem deduplicate_entries_ne_nil (l : List JObj) (h : l ≠ []) :
    deduplicate_entries l ≠ [] := by
  cases l with
  | nil => exact absurd rfl h
  | cons x xs => exact deduplicate_ne_nil x xs

theorem validateAndDedup_keys_nodup (jd : Json) (out : List JObj)
    (h : validateAndDedup jd = .ok out) : (out.map dedupKey).Nodup := by
  unfold validateAndDedup at h
  split at h
  · split at h
    · exact absurd h (by simp)
    · split at h
      · exact absurd h (by simp)
      · rw [Except.ok.injEq] at h
        rw [← h]
        exact deduplicate_keys_nodup _
  · split at h
    · exact absurd h (by simp)
    · split at h
      · exact absurd h (by simp)
      · rw [Except.ok.injEq] at h
        rw [← h]
        exact deduplicate_keys_nodup _
  · exact absurd h (by simp)

theorem validateAndDedup_ne_nil (jd : Json) (out : List JObj)
    (h : validateAndDedup jd = .ok out) : out ≠ [] := by
  unfold validateAndDedup at h
  split at h
  · split at h
    · exact absurd h (by simp)
    · split at h
      · exact absurd h (by simp)
      · rw [Except.ok.injEq] at h
        rw [← h]
        rename_i hne
        exact deduplicate_entries_ne_nil _ (fun hc => hne (by rw [hc]; rfl))
  · split at h
    · exact absurd h (by simp)
    · split at h
      · exact absurd h (by simp)
      · rw [Except.ok.injEq] at h
        rw [← h]
        rename_i hne
        exact deduplicate_entries_ne_nil _ (fun hc => hne (by rw [hc]; rfl))
  · exact absurd h (by simp)

/-- C5 (amended): every per-chunk output that survives `safe_extract_json`
has pairwise-distinct `(start, end)` pairs (the deduplication guarantee is
per chunk); the merge step does not re-deduplicate, so the claimed global
invariant fails across chunks (see the counterexample). -/
theorem c5_safe_extract_json_keys_nodup (content : Chars) (out : List JObj)
    (h : safe_extract_json content = .ok out) : (out.map dedupKey).Nodup := by
  unfold safe_extract_json at h
  split at h
  · exact absurd h (by simp)
  · simp only [] at h
    split at h
    · exact absurd h (by simp)
    · exact validateAndDedup_keys_nodup _ _ h

/-- The chunk-0 model output used for the C5 counterexample. -/
def c5_chunk0_output : Chars :=
  "\x60\x60\x60json\n[\x7b\"start\": \"01:40.000\", \"end\": \"01:41.000\", \"word\": \"a\"\x7d]\n\x60\x60\x60".data

/-- The chunk-1 model output used for the C5 counterexample. -/
def c5_chunk1_output : Chars :=
  "\x60\x60\x60json\n[\x7b\"start\": \"00:00.000\", \"end\": \"00:01.000\", \"word\": \"b\"\x7d]\n\x60\x60\x60".data

/-- The chunk-0 entry surviving repair and validation. -/
def c5_e0 : JObj :=
  [("start", Json.str "01:40.000".data), ("end", Json.str "01:41.000".data),
   ("word", Json.str "a".data)]

/-- The chunk-1 entry surviving repair and validation. -/
def c5_e1 : JObj :=
  [("start", Json.str "00:00.000".data), ("end", Json.str "00:01.000".data),
   ("word", Json.str "b".data)]

/-- The second merged entry: chunk 1's entry shifted by 100 s collides
with chunk 0's entry at the identical `(start, end)` pair. -/
def c5_m1 : JObj :=
  [("start", Json.str "01:40.000".data), ("end", Json.str "01:41.000".data),
   ("word", Json.str "b".data)]

/-- Witness for the amended C5 theorem at a concrete surviving output. -/
theorem c5_safe_extract_json_keys_nodup_witness :
    (([c5_e0] : List JObj).map dedupKey).Nodup :=
  c5_safe_extract_json_keys_nodup c5_chunk0_output [c5_e0] (by decide)

theorem c5_shift0 : shiftEntry (((0 : ℕ) : ℚ) * AUDIO_CHUNKING_OFFSET) c5_e0 = some c5_e0 := by
  have hoff : (((0 : ℕ) : ℚ)) * AUDIO_CHUNKING_OFFSET = 0 := by
    norm_num
  rw [hoff]
  unfold shiftEntry
  rw [show jget c5_e0 "start" = Json.str "01:40.000".data from by decide,
    show jget c5_e0 "end" = Json.str "01:41.000".data from by decide]
  rw [show "01:40.000".data = padNat 2 1 ++ ':' :: (padNat 2 40 ++ '.' :: padNat 3 0) from by decide,
    show "01:41.000".data = padNat 2 1 ++ ':' :: (padNat 2 41 ++ '.' :: padNat 3 0) from by decide]
  dsimp only
  rw [timestamp_to_seconds_msform 2 2 1 40 0 (by norm_num),
    timestamp_to_seconds_msform 2 2 1 41 0 (by norm_num)]
  simp only [Option.bind_eq_bind, Option.some_bind, Option.pure_def]
  have ha : ((60000 * 1 + 1000 * 40 + 0 : ℕ) : ℚ) / 1000 + 0 = ((60000 * 1 + 40000 : ℕ) : ℚ) / 1000 := by
    push_cast
    norm_num
  have hb : ((60000 * 1 + 1000 * 41 + 0 : ℕ) : ℚ) / 1000 + 0 = ((60000 * 1 + 41000 : ℕ) : ℚ) / 1000 := by
    push_cast
    norm_num
  rw [ha, hb, seconds_to_timestamp_msform 1 40000 (by norm_num),
    seconds_to_timestamp_msform 1 41000 (by norm_num)]
  decide

theorem c5_shift1 : shiftEntry (((1 : ℕ) : ℚ) * AUDIO_CHUNKING_OFFSET) c5_e1 = some c5_m1 := by
  have hoff : (((1 : ℕ) : ℚ)) * AUDIO_CHUNKING_OFFSET = 100 := by
    norm_num [AUDIO_CHUNKING_OFFSET]
  rw [hoff]
  unfold shiftEntry
  rw [show jget c5_e1 "start" = Json.str "00:00.000".data from by decide,
    show jget c5_e1 "end" = Json.str "00:01.000".data from by decide]
  rw [show "00:00.000".data = padNat 2 0 ++ ':' :: (padNat 2 0 ++ '.' :: padNat 3 0) from by decide,
    show "00:01.000".data = padNat 2 0 ++ ':' :: (padNat 2 1 ++ '.' :: padNat 3 0) from by decide]
  dsimp only
  rw [timestamp_to_seconds_msform 2 2 0 0 0 (by norm_num),
    timestamp_to_seconds_msform 2 2 0 1 0 (by norm_num)]
  simp only [Option.bind_eq_bind, Option.some_bind, Option.pure_def]
  have ha : ((60000 * 0 + 1000 * 0 + 0 : ℕ) : ℚ) / 1000 + 100 = ((60000 * 1 + 40000 : ℕ) : ℚ) / 1000 := by
    push_cast
    norm_num
  have hb : ((60000 * 0 + 1000 * 1 + 0 : ℕ) : ℚ) / 1000 + 100 = ((60000 * 1 + 41000 : ℕ) : ℚ) / 1000 := by
    push_cast
    norm_num
  rw [ha, hb, seconds_to_timestamp_msform 1 40000 (by norm_num),
    seconds_to_timestamp_msform 1 41000 (by norm_num)]
  decide

/-- C5 counterexample: two per-chunk model outputs that each survive
repair and validation, yet whose merge via `transcribe_chunks`
(`merge_json_with_offset` at offset 100) contains two distinct entries
with the identical `(start, end)` pair — refuting the claimed
no-duplicate invariant of the final merged transcript. -/
theorem c5_duplicate_pair_counterexample :
    safe_extract_json c5_chunk0_output = .ok [c5_e0] ∧
    safe_extract_json c5_chunk1_output = .ok [c5_e1] ∧
    transcribe_chunks_merge [(0, [c5_e0]), (1, [c5_e1])] = some [c5_e0, c5_m1] ∧
    dedupKey c5_e0 = dedupKey c5_m1 ∧ c5_e0 ≠ c5_m1 := by
  refine ⟨by decide, by decide, ?_, by decide, by decide⟩
  unfold transcribe_chunks_merge merge_json_with_offset
  rw [show List.insertionSort (fun a b : ℕ × List JObj => a.1 ≤ b.1) [(0, [c5_e0]), (1, [c5_e1])] =
    [(0, [c5_e0]), (1, [c5_e1])] from by decide]
  simp only [List.mapM_cons, List.mapM_nil, c5_shift0, c5_shift1,
    Option.bind_eq_bind, Option.some_bind, Option.pure_def, Option.map_some]
  rfl

theorem validateItems_objs (items : List JObj) :
    validateItems (items.map (fun o => Json.obj (objOfList o))) =
      .ok (items.filterMap validateItem) := by
  induction items with
  | nil => rfl
  | cons o t ih =>
    simp only [List.map_cons, validateItems, toList_objOfList, ih]
    cases hv : validateItem o <;> simp [List.filterMap_cons, hv]

/-- C8: after parsing, an entry missing `start` or `end` is dropped; an
entry lacking `word` is kept with `word` synthesized from the legacy
`Text`/`text` fields via Python's `or` when one of those keys is present,
and dropped when none is; iterating validation over a parsed array keeps
exactly the validated entries; when zero valid entries remain the stage
raises the chunk's `ParseError` (`"No valid items found in JSON data"`);
and a successful result is never the empty list (no silent empty-string
defaulting of missing text). -/
theorem c8_validation_spec :
    (∀ item : JObj,
      (validateItem item = none ↔
        ((jhas item "start" = false ∨ jhas item "end" = false) ∨
         (jhas item "word" = false ∧ jhas item "Text" = false ∧ jhas item "text" = false))) ∧
      (jhas item "start" = true → jhas item "end" = true → jhas item "word" = false →
        (jhas item "Text" = true ∨ jhas item "text" = true) →
        validateItem item =
          some (jset item "word" (pyOr (jget item "Text") (jget item "text")))) ∧
      (jhas item "start" = true → jhas item "end" = true → jhas item "word" = true →
        validateItem item = some item)) ∧
    (∀ items : List JObj,
      validateItems (items.map (fun o => Json.obj (objOfList o))) =
        .ok (items.filterMap validateItem) ∧
      (items.filterMap validateItem = [] →
        validateAndDedup (Json.arr (arrOfList (items.map (fun o => Json.obj (objOfList o))))) =
          .error "No valid items found in JSON data")) ∧
    (∀ jd : Json, ∀ out, validateAndDedup jd = .ok out → out ≠ []) := by
  refine ⟨fun item => ⟨?_, ?_, ?_⟩, fun items => ⟨validateItems_objs items, fun hempty => ?_⟩,
    fun jd out h => validateAndDedup_ne_nil jd out h⟩
  · unfold validateItem
    cases h1 : jhas item "start" <;> cases h2 : jhas item "end" <;>
      cases h3 : jhas item "word" <;> cases h4 : jhas item "Text" <;>
      cases h5 : jhas item "text" <;> simp [h1, h2, h3, h4, h5]
  · intro h1 h2 h3 h4
    unfold validateItem
    rcases h4 with h4 | h4 <;> simp [h1, h2, h3, h4]
  · intro h1 h2 h3
    unfold validateItem
    simp [h1, h2, h3]
  · unfold validateAndDedup
    dsimp only
    rw [toList_arrOfList, validateItems_objs items, hempty]
    rfl

/-- Witness for C8 at concrete entries: one entry missing `end` is
dropped, one entry with legacy `text` is kept with its text copied into
`word`, an all-invalid array raises, and a valid array survives
non-empty. -/
theorem c8_validation_spec_witness :
    validateItem [("start", Json.str "00:01.000".data)] = none ∧
    validateItem
      [("start", Json.str "00:01.000".data), ("end", Json.str "00:02.000".data),
       ("text", Json.str "hi".data)] =
      some [("start", Json.str "00:01.000".data), ("end", Json.str "00:02.000".data),
        ("text", Json.str "hi".data), ("word", Json.str "hi".data)] ∧
    validateAndDedup (Json.arr (arrOfList
      [Json.obj (objOfList [("start", Json.str "00:01.000".data)])])) =
      .error "No valid items found in JSON data" ∧
    ∀ out, validateAndDedup (Json.arr (arrOfList
      [Json.obj (objOfList [("start", Json.str "00:01.000".data),
        ("end", Json.str "00:02.000".data), ("word", Json.str "hi".data)])])) = .ok out →
      out ≠ [] := by
  refine ⟨?_, ?_, ?_, ?_⟩
  · exact (c8_validation_spec.1 [("start", Json.str "00:01.000".data)]).1.mpr
      (Or.inl (Or.inr (by decide)))
  · have h := ((c8_validation_spec.1
      [("start", Json.str "00:01.000".data), ("end", Json.str "00:02.000".data),
       ("text", Json.str "hi".data)]).2.1) (by decide) (by decide) (by decide)
      (Or.inr (by decide))
    rw [h]
    decide
  · have h := (c8_validation_spec.2.1
      [[("start", Json.str "00:01.000".data)]]).2
    exact h (by decide)
  · intro out hout
    exact c8_validation_spec.2.2 _ out hout

/-- C9: in the annotation loop of `process_diarization`, the emitted end
is formatted from `min end_seconds audio_duration` — exactly the audio
duration whenever the parsed end exceeds it — so the seconds value the
end is formatted from never exceeds the audio duration. -/
theorem c9_annotation_end_clamped (audio_duration : ℚ) (e : JObj) (sv tv : ℚ)
    (hs : annValueSeconds (jget e "start") = some sv)
    (ht : annValueSeconds (jget e "end") = some tv) :
    processWord audio_duration e =
      some (format_timestamp_precise sv, format_timestamp_precise (min tv audio_duration),
        (jlookup e "word").getD (Json.str [])) ∧
    min tv audio_duration ≤ audio_duration ∧
    (tv > audio_duration → min tv audio_duration = audio_duration) := by
  refine ⟨?_, min_le_right _ _, fun hgt => min_eq_right (le_of_lt hgt)⟩
  unfold processWord
  rw [hs, ht]
  simp only [Option.bind_eq_bind, Option.some_bind, Option.pure_def]
  have hmin : (if tv > audio_duration then audio_duration else tv) = min tv audio_duration := by
    rcases le_or_lt tv audio_duration with hle | hlt
    · rw [if_neg (not_lt.mpr hle), min_eq_left hle]
    · rw [if_pos hlt, min_eq_right (le_of_lt hlt)]
  rw [hmin]

/-- The concrete entry of C9's specification example: a word entry ending
at 120.5 s. -/
def c9_entry : JObj :=
  [("start", Json.str "01:59.000".data), ("end", Json.str "02:00.500".data),
   ("word", Json.str "w".data)]

/-- Witness for C9 at the claim's numbers: with an audio duration of
118.0 s, the entry ending at 120.5 s is emitted with its end formatted
from 118.0 s exactly (`0:01:58.000000`). -/
theorem c9_annotation_end_clamped_witness :
    processWord 118 c9_entry =
      some (format_timestamp_precise (((119000 : ℕ) : ℚ) / 1000), "0:01:58.000000".data,
        Json.str "w".data) := by
  have hs : annValueSeconds (jget c9_entry "start") = some (((119000 : ℕ) : ℚ) / 1000) := by
    rw [show jget c9_entry "start" = Json.str "01:59.000".data from by decide]
    unfold annValueSeconds
    rw [show "01:59.000".data = padNat 2 1 ++ ':' :: (padNat 2 59 ++ '.' :: padNat 3 0)
      from by decide]
    dsimp only
    rw [annotationSeconds_msform 2 2 1 59 0 (by norm_num)]
  have ht : annValueSeconds (jget c9_entry "end") = some (((120500 : ℕ) : ℚ) / 1000) := by
    rw [show jget c9_entry "end" = Json.str "02:00.500".data from by decide]
    unfold annValueSeconds
    rw [show "02:00.500".data = padNat 2 2 ++ ':' :: (padNat 2 0 ++ '.' :: padNat 3 500)
      from by decide]
    dsimp only
    rw [annotationSeconds_msform 2 2 2 0 500 (by norm_num)]
  obtain ⟨h1, _, _⟩ := c9_annotation_end_clamped 118 c9_entry _ _ hs ht
  rw [h1]
  have hmin : min (((120500 : ℕ) : ℚ) / 1000) 118 = 118 := by
    rw [min_eq_right]
    push_cast
    norm_num
  rw [hmin]
  have h118 : (118 : ℚ) = ((3600000000 * 0 + 60000000 * 1 + 58000000 : ℕ) : ℚ) / 1000000 := by
    push_cast
    norm_num
  rw [h118, format_timestamp_precise_eval 0 1 58000000 (by norm_num) (by norm_num)]
  rw [show jlookup c9_entry "word" = some (Json.str "w".data) from by decide]
  rw [show natChars 0 ++ ':' :: (padNat 2 1 ++ ':' ::
    (padNat 2 (58000000 / 1000000) ++ '.' :: padNat 6 (58000000 % 1000000))) =
    "0:01:58.000000".data from by decide]
  rfl

/-- C10: the annotation loop clamps only `end`, never `start`: the start
is formatted from the parsed value unchanged even when it exceeds the
audio duration, so (at millisecond-granular values, which is what the
pipeline produces) such an entry's emitted start parses back to a value
strictly greater than its clamped end. -/
theorem c10_annotation_start_not_clamped (audio_duration : ℚ) (e : JObj) (ns nt nd : ℕ)
    (hs : annValueSeconds (jget e "start") = some ((ns : ℚ) / 1000))
    (ht : annValueSeconds (jget e "end") = some ((nt : ℚ) / 1000))
    (hdur : audio_duration = (nd : ℚ) / 1000)
    (hgt : (ns : ℚ) / 1000 > audio_duration) :
    processWord audio_duration e =
      some (format_timestamp_precise ((ns : ℚ) / 1000),
        format_timestamp_precise (min ((nt : ℚ) / 1000) audio_duration),
        (jlookup e "word").getD (Json.str [])) ∧
    ∃ u v : ℚ,
      annotationSeconds (format_timestamp_precise ((ns : ℚ) / 1000)) = some u ∧
      annotationSeconds (format_timestamp_precise (min ((nt : ℚ) / 1000) audio_duration)) =
        some v ∧ v < u := by
  constructor
  · unfold processWord
    rw [hs, ht]
    simp only [Option.bind_eq_bind, Option.some_bind, Option.pure_def]
    have hmin : (if (nt : ℚ) / 1000 > audio_duration then audio_duration else (nt : ℚ) / 1000) =
        min ((nt : ℚ) / 1000) audio_duration := by
      rcases le_or_lt ((nt : ℚ) / 1000) audio_duration with hle | hlt
      · rw [if_neg (not_lt.mpr hle), min_eq_left hle]
      · rw [if_pos hlt, min_eq_right (le_of_lt hlt)]
    rw [hmin]
  · have hminval : min ((nt : ℚ) / 1000) audio_duration = ((min nt nd : ℕ) : ℚ) / 1000 := by
      rw [hdur, Nat.cast_min]
      exact min_div_div_right (c := (1000 : ℚ)) (by norm_num) (nt : ℚ) (nd : ℚ)
    refine ⟨(ns : ℚ) / 1000, ((min nt nd : ℕ) : ℚ) / 1000,
      precise_roundtrip_exact ns, ?_, ?_⟩
    · rw [hminval]
      exact precise_roundtrip_exact (min nt nd)
    · calc ((min nt nd : ℕ) : ℚ) / 1000 = min ((nt : ℚ) / 1000) audio_duration := hminval.symm
        _ ≤ audio_duration := min_le_right _ _
        _ < (ns : ℚ) / 1000 := hgt

/-- The concrete entry of C10's scenario: start beyond the duration. -/
def c10_entry : JObj :=
  [("start", Json.str "02:01.000".data), ("end", Json.str "02:00.500".data),
   ("word", Json.str "w".data)]

/-- Witness for C10: with duration 118.0 s, an entry starting at 121.0 s
keeps its out-of-range start while the end is clamped, and the emitted
start parses back strictly above the emitted end. -/
theorem c10_annotation_start_not_clamped_witness :
    processWord (((118000 : ℕ) : ℚ) / 1000) c10_entry =
      some (format_timestamp_precise (((121000 : ℕ) : ℚ) / 1000),
        format_timestamp_precise (min (((120500 : ℕ) : ℚ) / 1000) (((118000 : ℕ) : ℚ) / 1000)),
        Json.str "w".data) ∧
    ∃ u v : ℚ,
      annotationSeconds (format_timestamp_precise (((121000 : ℕ) : ℚ) / 1000)) = some u ∧
      annotationSeconds (format_timestamp_precise
        (min (((120500 : ℕ) : ℚ) / 1000) (((118000 : ℕ) : ℚ) / 1000))) = some v ∧ v < u := by
  have hs : annValueSeconds (jget c10_entry "start") = some (((121000 : ℕ) : ℚ) / 1000) := by
    rw [show jget c10_entry "start" = Json.str "02:01.000".data from by decide]
    unfold annValueSeconds
    rw [show "02:01.000".data = padNat 2 2 ++ ':' :: (padNat 2 1 ++ '.' :: padNat 3 0)
      from by decide]
    dsimp only
    rw [annotationSeconds_msform 2 2 2 1 0 (by norm_num)]
  have ht : annValueSeconds (jget c10_entry "end") = some (((120500 : ℕ) : ℚ) / 1000) := by
    rw [show jget c10_entry "end" = Json.str "02:00.500".data from by decide]
    unfold annValueSeconds
    rw [show "02:00.500".data = padNat 2 2 ++ ':' :: (padNat 2 0 ++ '.' :: padNat 3 500)
      from by decide]
    dsimp only
    rw [annotationSeconds_msform 2 2 2 0 500 (by norm_num)]
  have hgt : ((121000 : ℕ) : ℚ) / 1000 > ((118000 : ℕ) : ℚ) / 1000 := by
    push_cast
    norm_num
  obtain ⟨h1, h2⟩ := c10_annotation_start_not_clamped (((118000 : ℕ) : ℚ) / 1000) c10_entry
    121000 120500 118000 hs ht rfl hgt
  refine ⟨?_, h2⟩
  rw [h1]
  rw [show jlookup c10_entry "word" = some (Json.str "w".data) from by decide]
  rfl

/-- C6: for every `t` in `[0, 86400)` seconds, parsing
`seconds_to_timestamp t` with `timestamp_to_seconds` recovers `t` to
within 1 ms, and parsing `format_timestamp_precise t` with the Annotation
Assembler's 3-part `H:MM:SS` reader recovers `t` to within 1 ms. -/
theorem c6_timestamp_roundtrips (t : ℚ) (h0 : 0 ≤ t) (hup : t < 86400) :
    (∃ v, timestamp_to_seconds (seconds_to_timestamp t) = some v ∧ |v - t| ≤ 1 / 1000) ∧
    (∃ v, annotationSeconds (format_timestamp_precise t) = some v ∧ |v - t| ≤ 1 / 1000) := by
  constructor
  · obtain ⟨v, hv, hb⟩ := timestamp_roundtrip_approx t h0
    exact ⟨v, hv, le_trans hb (by norm_num)⟩
  · exact precise_roundtrip_approx t h0

/-- Witness for C6 at `t = 121/2` seconds (inside `[0, 86400)`). -/
theorem c6_timestamp_roundtrips_witness :
    (∃ v, timestamp_to_seconds (seconds_to_timestamp (121 / 2)) = some v ∧
      |v - 121 / 2| ≤ 1 / 1000) ∧
    (∃ v, annotationSeconds (format_timestamp_precise (121 / 2)) = some v ∧
      |v - 121 / 2| ≤ 1 / 1000) :=
  c6_timestamp_roundtrips (121 / 2) (by norm_num) (by norm_num)

/-- C7: for every entry list whose timestamps parse and every speed
factor in `{0.25, 0.5, 0.75, 1.0}`, `adjust_timestamps_for_speed` maps
each timestamp value `t` to `t * f` (re-rendered); applied to a timestamp
the model reported as `u / f` on audio slowed by factor `f` (true time
`u`), the re-rendered timestamp parses back to within 1 ms of `u`. -/
theorem c7_adjust_timestamps_spec (json_data : List JObj) (f : ℚ)
    (hf : f = 1 / 4 ∨ f = 1 / 2 ∨ f = 3 / 4 ∨ f = 1)
    (hparse : ∀ e ∈ json_data, ∃ s t : Chars, ∃ sv tv : ℚ,
      jget e "start" = Json.str s ∧ jget e "end" = Json.str t ∧
      timestamp_to_seconds s = some sv ∧ timestamp_to_seconds t = some tv) :
    ∃ out, adjust_timestamps_for_speed json_data f = some out ∧
      ∀ e ∈ json_data, ∀ s t : Chars, ∀ sv tv : ℚ,
        jget e "start" = Json.str s → jget e "end" = Json.str t →
        timestamp_to_seconds s = some sv → timestamp_to_seconds t = some tv →
        adjustEntry f e =
          some (jset (jset e "start" (Json.str (seconds_to_timestamp (sv * f)))) "end"
            (Json.str (seconds_to_timestamp (tv * f)))) ∧
        jset (jset e "start" (Json.str (seconds_to_timestamp (sv * f)))) "end"
            (Json.str (seconds_to_timestamp (tv * f))) ∈ out ∧
        (∀ u : ℚ, 0 ≤ u → sv = u / f →
          ∃ v, timestamp_to_seconds (seconds_to_timestamp (sv * f)) = some v ∧
            |v - u| ≤ 1 / 1000) ∧
        (∀ u : ℚ, 0 ≤ u → tv = u / f →
          ∃ v, timestamp_to_seconds (seconds_to_timestamp (tv * f)) = some v ∧
            |v - u| ≤ 1 / 1000) := by
  have hf0 : f ≠ 0 := by
    rcases hf with rfl | rfl | rfl | rfl <;> norm_num
  have hadj : ∀ e ∈ json_data, adjustEntry f e = some ((adjustEntry f e).getD []) := by
    intro e he
    obtain ⟨s, t, sv, tv, hgs, hgt, hps, hpt⟩ := hparse e he
    unfold adjustEntry
    rw [hgs, hgt]
    dsimp only
    rw [hps, hpt]
    rfl
  refine ⟨json_data.map (fun e => (adjustEntry f e).getD []),
    mapM_option_eq_map _ _ _ hadj, ?_⟩
  intro e he s t sv tv hgs hgt hps hpt
  have hentry : adjustEntry f e =
      some (jset (jset e "start" (Json.str (seconds_to_timestamp (sv * f)))) "end"
        (Json.str (seconds_to_timestamp (tv * f)))) := by
    unfold adjustEntry
    rw [hgs, hgt]
    dsimp only
    rw [hps, hpt]
    rfl
  refine ⟨hentry, ?_, ?_, ?_⟩
  · refine List.mem_map.mpr ⟨e, he, ?_⟩
    rw [hentry]
    rfl
  · intro u hu hsv
    have hval : sv * f = u := by
      rw [hsv]
      field_simp
    have hnn : 0 ≤ sv * f := by rw [hval]; exact hu
    obtain ⟨v, hv, hb⟩ := timestamp_roundtrip_approx (sv * f) hnn
    refine ⟨v, hv, ?_⟩
    rw [show v - u = v - sv * f from by rw [hval]]
    exact le_trans hb (by norm_num)
  · intro u hu htv
    have hval : tv * f = u := by
      rw [htv]
      field_simp
    have hnn : 0 ≤ tv * f := by rw [hval]; exact hu
    obtain ⟨v, hv, hb⟩ := timestamp_roundtrip_approx (tv * f) hnn
    refine ⟨v, hv, ?_⟩
    rw [show v - u = v - tv * f from by rw [hval]]
    exact le_trans hb (by norm_num)

/-- The concrete entry of C7's witness: timestamps as the model would
report them on audio slowed to half speed (true times 1 s and 2 s). -/
def c7_entry : JObj :=
  [("start", Json.str "00:02.000".data), ("end", Json.str "00:04.000".data),
   ("word", Json.str "w".data)]

/-- Witness for C7: adjusting the half-speed entry succeeds, and the
re-rendered start parses back to within 1 ms of the true time 1 s. -/
theorem c7_adjust_timestamps_spec_witness :
    ∃ out, adjust_timestamps_for_speed [c7_entry] (1 / 2) = some out ∧
      ∃ v, timestamp_to_seconds (seconds_to_timestamp
        ((((60000 * 0 + 1000 * 2 + 0 : ℕ) : ℚ) / 1000) * (1 / 2))) = some v ∧
        |v - 1| ≤ 1 / 1000 := by
  have hps : timestamp_to_seconds "00:02.000".data =
      some (((60000 * 0 + 1000 * 2 + 0 : ℕ) : ℚ) / 1000) := by
    rw [show "00:02.000".data = padNat 2 0 ++ ':' :: (padNat 2 2 ++ '.' :: padNat 3 0)
      from by decide]
    exact timestamp_to_seconds_msform 2 2 0 2 0 (by norm_num)
  have hpt : timestamp_to_seconds "00:04.000".data =
      some (((60000 * 0 + 1000 * 4 + 0 : ℕ) : ℚ) / 1000) := by
    rw [show "00:04.000".data = padNat 2 0 ++ ':' :: (padNat 2 4 ++ '.' :: padNat 3 0)
      from by decide]
    exact timestamp_to_seconds_msform 2 2 0 4 0 (by norm_num)
  obtain ⟨out, hout, hrest⟩ := c7_adjust_timestamps_spec [c7_entry] (1 / 2)
    (Or.inr (Or.inl rfl))
    (by
      intro e he
      rcases List.mem_singleton.mp he with rfl
      exact ⟨_, _, _, _, by decide, by decide, hps, hpt⟩)
  refine ⟨out, hout, ?_⟩
  obtain ⟨_, _, hrec, _⟩ := hrest c7_entry (List.mem_singleton.mpr rfl) _ _ _ _
    (by decide) (by decide) hps hpt
  exact hrec 1 (by norm_num) (by push_cast; norm_num)

/-- An entry whose `start`/`end` are strings parsing at millisecond
granularity (the `MM:SS.mmm` contract of the backend's output). -/
def entryParsesMs (e : JObj) : Prop :=
  ∃ s t : Chars, ∃ ns nt : ℕ,
    jget e "start" = Json.str s ∧ jget e "end" = Json.str t ∧
    timestamp_to_seconds s = some ((ns : ℚ) / 1000) ∧
    timestamp_to_seconds t = some ((nt : ℚ) / 1000)

theorem shiftEntry_fields (off : ℚ) (e : JObj) (s t : Chars) (sv tv : ℚ)
    (hgs : jget e "start" = Json.str s) (hgt : jget e "end" = Json.str t)
    (hps : timestamp_to_seconds s = some sv) (hpt : timestamp_to_seconds t = some tv) :
    shiftEntry off e =
      some (jset (jset e "start" (Json.str (seconds_to_timestamp (sv + off)))) "end"
        (Json.str (seconds_to_timestamp (tv + off)))) ∧
    jget ((shiftEntry off e).getD []) "start" =
      Json.str (seconds_to_timestamp (sv + off)) ∧
    jget ((shiftEntry off e).getD []) "end" =
      Json.str (seconds_to_timestamp (tv + off)) := by
  have heq : shiftEntry off e =
      some (jset (jset e "start" (Json.str (seconds_to_timestamp (sv + off)))) "end"
        (Json.str (seconds_to_timestamp (tv + off)))) := by
    unfold shiftEntry
    rw [hgs, hgt]
    dsimp only
    rw [hps, hpt]
    rfl
  refine ⟨heq, ?_, ?_⟩
  · rw [heq]
    rw [show (some (jset (jset e "start" (Json.str (seconds_to_timestamp (sv + off)))) "end"
      (Json.str (seconds_to_timestamp (tv + off))))).getD [] =
      jset (jset e "start" (Json.str (seconds_to_timestamp (sv + off)))) "end"
        (Json.str (seconds_to_timestamp (tv + off))) from rfl]
    rw [jget_jset_ne _ _ _ _ (by decide), jget_jset_self]
  · rw [heq]
    rw [show (some (jset (jset e "start" (Json.str (seconds_to_timestamp (sv + off)))) "end"
      (Json.str (seconds_to_timestamp (tv + off))))).getD [] =
      jset (jset e "start" (Json.str (seconds_to_timestamp (sv + off)))) "end"
        (Json.str (seconds_to_timestamp (tv + off))) from rfl]
    rw [jget_jset_self]

theorem shiftEntry_isSome (off : ℚ) (e : JObj) (h : entryParsesMs e) :
    shiftEntry off e = some ((shiftEntry off e).getD []) := by
  obtain ⟨s, t, ns, nt, hgs, hgt, hps, hpt⟩ := h
  rw [(shiftEntry_fields off e s t _ _ hgs hgt hps hpt).1]
  rfl

/-- C2: with the chunk offset constant equal to 100 s and distinct chunk
indices, `merge_json_with_offset` processes chunks in strictly ascending
index order (a permutation of the chunk dictionary sorted by index),
preserves per-chunk entry order (each chunk contributes the ordered map
of its entries), replaces each entry's `start`/`end` by its parsed value
plus `i * 100` seconds reformatted (and the reformatted string parses
back to exactly that value), and every chunk-1 entry with raw start in
`[0, 100)` has a merged start of at least 100 seconds. -/
theorem c2_merge_json_with_offset_spec (data : List (ℕ × List JObj))
    (hkeys : (data.map Prod.fst).Nodup)
    (hparse : ∀ p ∈ data, ∀ e ∈ p.2, entryParsesMs e) :
    AUDIO_CHUNKING_OFFSET = 100 ∧
    ∃ sorted : List (ℕ × List JObj),
      sorted.Perm data ∧
      List.Sorted (· < ·) (sorted.map Prod.fst) ∧
      merge_json_with_offset data AUDIO_CHUNKING_OFFSET =
        some ((sorted.map (fun p : ℕ × List JObj =>
          p.2.map (fun e => (shiftEntry ((p.1 : ℚ) * AUDIO_CHUNKING_OFFSET) e).getD []))).flatten) ∧
      (∀ p ∈ data, ∀ e ∈ p.2, ∀ s : Chars, ∀ ns : ℕ,
        jget e "start" = Json.str s → timestamp_to_seconds s = some ((ns : ℚ) / 1000) →
        jget ((shiftEntry (((p : ℕ × List JObj).1 : ℚ) * AUDIO_CHUNKING_OFFSET) e).getD [])
            "start" =
          Json.str (seconds_to_timestamp ((ns : ℚ) / 1000 + (p.1 : ℚ) * AUDIO_CHUNKING_OFFSET)) ∧
        timestamp_to_seconds (seconds_to_timestamp
            ((ns : ℚ) / 1000 + (p.1 : ℚ) * AUDIO_CHUNKING_OFFSET)) =
          some ((ns : ℚ) / 1000 + (p.1 : ℚ) * AUDIO_CHUNKING_OFFSET)) ∧
      (∀ p ∈ data, ∀ e ∈ p.2, ∀ t : Chars, ∀ nt : ℕ,
        jget e "end" = Json.str t → timestamp_to_seconds t = some ((nt : ℚ) / 1000) →
        jget ((shiftEntry (((p : ℕ × List JObj).1 : ℚ) * AUDIO_CHUNKING_OFFSET) e).getD [])
            "end" =
          Json.str (seconds_to_timestamp ((nt : ℚ) / 1000 + (p.1 : ℚ) * AUDIO_CHUNKING_OFFSET))) ∧
      (∀ arr : List JObj, (1, arr) ∈ data → ∀ e ∈ arr, ∀ s : Chars, ∀ ns : ℕ,
        jget e "start" = Json.str s → timestamp_to_seconds s = some ((ns : ℚ) / 1000) →
        (ns : ℚ) / 1000 < 100 →
        ∀ v : ℚ, timestamp_to_seconds (seconds_to_timestamp
            ((ns : ℚ) / 1000 + ((1 : ℕ) : ℚ) * AUDIO_CHUNKING_OFFSET)) = some v →
          100 ≤ v) := by
  refine ⟨rfl, ?_⟩
  haveI : IsTotal (ℕ × List JObj) (fun a b : ℕ × List JObj => a.1 ≤ b.1) :=
    ⟨fun a b => le_total a.1 b.1⟩
  haveI : IsTrans (ℕ × List JObj) (fun a b : ℕ × List JObj => a.1 ≤ b.1) :=
    ⟨fun a b c hab hbc => le_trans hab hbc⟩
  set sorted := List.insertionSort (fun a b : ℕ × List JObj => a.1 ≤ b.1) data with hsorted
  have hperm : sorted.Perm data := List.perm_insertionSort _ data
  have hvalshift : ∀ (ns : ℕ) (i : ℕ),
      timestamp_to_seconds (seconds_to_timestamp
        ((ns : ℚ) / 1000 + (i : ℚ) * AUDIO_CHUNKING_OFFSET)) =
      some ((ns : ℚ) / 1000 + (i : ℚ) * AUDIO_CHUNKING_OFFSET) := by
    intro ns i
    have hval : (ns : ℚ) / 1000 + (i : ℚ) * AUDIO_CHUNKING_OFFSET =
        ((ns + 100000 * i : ℕ) : ℚ) / 1000 := by
      rw [show AUDIO_CHUNKING_OFFSET = 100 from rfl]
      push_cast
      ring
    rw [hval]
    exact timestamp_roundtrip_exact (ns + 100000 * i)
  refine ⟨sorted, hperm, ?_, ?_, ?_, ?_, ?_⟩
  · have hle : List.Pairwise (fun a b : ℕ × List JObj => a.1 ≤ b.1) sorted :=
      List.sorted_insertionSort _ data
    have hnd : (sorted.map Prod.fst).Nodup :=
      ((hperm.map Prod.fst).nodup_iff).mpr hkeys
    have hlemap : List.Pairwise (· ≤ ·) (sorted.map Prod.fst) := by
      rw [List.pairwise_map]
      exact hle
    have hne : List.Pairwise (· ≠ ·) (sorted.map Prod.fst) := hnd
    exact (hlemap.and hne).imp (fun h => lt_of_le_of_ne h.1 h.2)
  · unfold merge_json_with_offset
    rw [← hsorted]
    rw [mapM_option_eq_map _
      (fun p : ℕ × List JObj =>
        p.2.map (fun e => (shiftEntry ((p.1 : ℚ) * AUDIO_CHUNKING_OFFSET) e).getD []))
      sorted ?hchunk]
    · rfl
    case hchunk =>
      intro p hp
      exact mapM_option_eq_map _ _ _
        (fun e he => shiftEntry_isSome _ e (hparse p (hperm.mem_iff.mp hp) e he))
  · intro p hp e he s ns hgs hps
    obtain ⟨s2, t2, ns2, nt2, hgs2, hgt2, hps2, hpt2⟩ := hparse p hp e he
    have hseq : s2 = s := by
      rw [hgs] at hgs2
      exact (Json.str.injEq _ _).mp hgs2.symm ▸ rfl
    rw [hseq] at hps2
    have hveq : ((ns2 : ℚ) / 1000) = ((ns : ℚ) / 1000) := by
      rw [hps] at hps2
      exact (Option.some_inj.mp hps2).symm ▸ rfl
    obtain ⟨heq, hstart, hend⟩ :=
      shiftEntry_fields ((p.1 : ℚ) * AUDIO_CHUNKING_OFFSET) e s t2 _ _ hgs hgt2 hps hpt2
    exact ⟨hstart, hvalshift ns p.1⟩
  · intro p hp e he t nt hgt hpt
    obtain ⟨s2, t2, ns2, nt2, hgs2, hgt2, hps2, hpt2⟩ := hparse p hp e he
    obtain ⟨heq, hstart, hend⟩ :=
      shiftEntry_fields ((p.1 : ℚ) * AUDIO_CHUNKING_OFFSET) e s2 t _ _ hgs2 hgt hps2 hpt
    exact hend
  · intro arr harr e he s ns hgs hps hlt v hv
    rw [hvalshift ns 1] at hv
    have hv2 : v = (ns : ℚ) / 1000 + ((1 : ℕ) : ℚ) * AUDIO_CHUNKING_OFFSET :=
      (Option.some_inj.mp hv).symm
    rw [hv2, show AUDIO_CHUNKING_OFFSET = 100 from rfl]
    have hns : (0 : ℚ) ≤ (ns : ℚ) / 1000 := by positivity
    push_cast
    linarith [hns]

/-- Witness for C2: a two-chunk results dictionary listed out of order
merges successfully under the theorem's hypotheses. -/
theorem c2_merge_json_with_offset_spec_witness :
    ∃ out, merge_json_with_offset [(1, [c5_e1]), (0, [c5_e0])] AUDIO_CHUNKING_OFFSET =
      some out := by
  have hp0 : entryParsesMs c5_e0 := by
    refine ⟨"01:40.000".data, "01:41.000".data, 60000 * 1 + 1000 * 40 + 0,
      60000 * 1 + 1000 * 41 + 0, by decide, by decide, ?_, ?_⟩
    · rw [show "01:40.000".data = padNat 2 1 ++ ':' :: (padNat 2 40 ++ '.' :: padNat 3 0)
        from by decide]
      exact timestamp_to_seconds_msform 2 2 1 40 0 (by norm_num)
    · rw [show "01:41.000".data = padNat 2 1 ++ ':' :: (padNat 2 41 ++ '.' :: padNat 3 0)
        from by decide]
      exact timestamp_to_seconds_msform 2 2 1 41 0 (by norm_num)
  have hp1 : entryParsesMs c5_e1 := by
    refine ⟨"00:00.000".data, "00:01.000".data, 60000 * 0 + 1000 * 0 + 0,
      60000 * 0 + 1000 * 1 + 0, by decide, by decide, ?_, ?_⟩
    · rw [show "00:00.000".data = padNat 2 0 ++ ':' :: (padNat 2 0 ++ '.' :: padNat 3 0)
        from by decide]
      exact timestamp_to_seconds_msform 2 2 0 0 0 (by norm_num)
    · rw [show "00:01.000".data = padNat 2 0 ++ ':' :: (padNat 2 1 ++ '.' :: padNat 3 0)
        from by decide]
      exact timestamp_to_seconds_msform 2 2 0 1 0 (by norm_num)
  obtain ⟨-, sorted, -, -, hmerge, -⟩ :=
    c2_merge_json_with_offset_spec [(1, [c5_e1]), (0, [c5_e0])] (by decide)
      (by
        intro p hp e he
        rcases List.mem_cons.mp hp with rfl | hp2
        · rcases List.mem_singleton.mp he with rfl
          exact hp1
        · rcases List.mem_singleton.mp hp2 with rfl
          rcases List.mem_singleton.mp he with rfl
          exact hp0)
  exact ⟨_, hmerge⟩

theorem retry_sleeps_cons (jitter : ℕ → ℚ) (base maxd : ℚ) (attempt k : ℕ) :
    (min maxd (base * 2 ^ attempt) + jitter attempt) ::
      (List.range k).map
        (fun j => min maxd (base * 2 ^ (attempt + 1 + j)) + jitter (attempt + 1 + j)) =
    (List.range (k + 1)).map
      (fun j => min maxd (base * 2 ^ (attempt + j)) + jitter (attempt + j)) := by
  rw [List.range_succ_eq_map, List.map_cons, List.map_map]
  congr 1
  refine List.map_congr_left ?_
  intro j hj
  simp only [Function.comp]
  rw [show attempt + 1 + j = attempt + (j + 1) from by omega]

theorem retryGo_success {E A : Type} (results : ℕ → Except E A) (jitter : ℕ → ℚ)
    (maxR : ℕ) (base maxd : ℚ) :
    ∀ (k attempt fuel : ℕ) (a : A),
      k < fuel →
      attempt + k ≤ maxR - 1 →
      results (attempt + k) = .ok a →
      (∀ j, j < k → ∃ e, results (attempt + j) = .error e) →
      retryGo results jitter maxR base maxd attempt fuel =
        some (.ok a, (List.range k).map
          (fun j => min maxd (base * 2 ^ (attempt + j)) + jitter (attempt + j)),
          attempt + k + 1) := by
  intro k
  induction k with
  | zero =>
    intro attempt fuel a hk hle hok hfail
    match fuel, hk with
    | f + 1, _ =>
      simp only [retryGo]
      rw [show attempt + 0 = attempt from rfl] at hok
      rw [hok]
      simp
  | succ k ih =>
    intro attempt fuel a hk hle hok hfail
    match fuel, hk with
    | f + 1, _ =>
      obtain ⟨e0, he0⟩ := hfail 0 (Nat.succ_pos k)
      rw [show attempt + 0 = attempt from rfl] at he0
      simp only [retryGo]
      rw [he0]
      dsimp only
      have hne : ¬ (attempt = maxR - 1) := by omega
      rw [if_neg hne]
      have hok2 : results (attempt + 1 + k) = .ok a := by
        rw [show attempt + 1 + k = attempt + (k + 1) from by omega]
        exact hok
      have hfail2 : ∀ j, j < k → ∃ e, results (attempt + 1 + j) = .error e := by
        intro j hj
        obtain ⟨e, he⟩ := hfail (j + 1) (by omega)
        exact ⟨e, by rw [show attempt + 1 + j = attempt + (j + 1) from by omega]; exact he⟩
      rw [ih (attempt + 1) f a (by omega) (by omega) hok2 hfail2]
      simp only [Option.map_some']
      rw [retry_sleeps_cons]
      rw [show attempt + 1 + k + 1 = attempt + (k + 1) + 1 from by omega]

theorem retryGo_allfail {E A : Type} (results : ℕ → Except E A) (jitter : ℕ → ℚ)
    (maxR : ℕ) (base maxd : ℚ) :
    ∀ (fuel attempt : ℕ) (e : E),
      fuel = maxR - attempt →
      attempt < maxR →
      (∀ j, attempt ≤ j → j < maxR → ∃ e', results j = .error e') →
      results (maxR - 1) = .error e →
      retryGo results jitter maxR base maxd attempt fuel =
        some (.error e, (List.range (maxR - 1 - attempt)).map
          (fun j => min maxd (base * 2 ^ (attempt + j)) + jitter (attempt + j)), maxR) := by
  intro fuel
  induction fuel with
  | zero =>
    intro attempt e hfuel hlt hfail hlast
    omega
  | succ f ih =>
    intro attempt e hfuel hlt hfail hlast
    obtain ⟨ea, hea⟩ := hfail attempt (le_refl _) hlt
    simp only [retryGo]
    rw [hea]
    dsimp only
    by_cases hend : attempt = maxR - 1
    · rw [if_pos hend]
      have he : ea = e := by
        rw [hend] at hea
        rw [hea] at hlast
        exact (Except.error.injEq _ _).mp hlast.symm ▸ rfl
      rw [he]
      rw [show maxR - 1 - attempt = 0 from by omega]
      simp only [List.range_zero, List.map_nil]
      rw [show attempt + 1 = maxR from by omega]
    · rw [if_neg hend]
      rw [ih (attempt + 1) e (by omega) (by omega)
        (fun j hj1 hj2 => hfail j (by omega) hj2) hlast]
      simp only [Option.map_some']
      rw [show maxR - 1 - attempt = (maxR - 1 - (attempt + 1)) + 1 from by omega]
      rw [← retry_sleeps_cons]

/-- C4: `retry_with_backoff` with its source defaults (5 attempts, base
15 s, cap 300 s) makes at most 5 calls; the sleep after the `j`-th
failure (0-based) is `min 300 (15 * 2 ^ j)` plus that draw of jitter,
which under the uniform-draw bound lies between the delay and 1.1 times
the delay; the first successful attempt's result is returned immediately
(k prior failures give exactly k sleeps and k + 1 calls); and if all 5
attempts raise, the final attempt's exception propagates unchanged. -/
theorem c4_retry_with_backoff_spec {E A : Type} (results : ℕ → Except E A) (jitter : ℕ → ℚ)
    (hjit : ∀ k, 0 ≤ jitter k ∧ jitter k ≤ min 300 (15 * 2 ^ k) / 10) :
    ∃ (outcome : Except E A) (sleeps : List ℚ) (ncalls : ℕ),
      retry_with_backoff results jitter 5 15 300 = some (outcome, sleeps, ncalls) ∧
      ncalls ≤ 5 ∧
      sleeps = (List.range (ncalls - 1)).map (fun j => min 300 (15 * 2 ^ j) + jitter j) ∧
      (∀ j : ℕ, min (300 : ℚ) (15 * 2 ^ j) ≤ min 300 (15 * 2 ^ j) + jitter j ∧
        min (300 : ℚ) (15 * 2 ^ j) + jitter j ≤ min 300 (15 * 2 ^ j) * (11 / 10)) ∧
      (∀ (k : ℕ) (a : A), k < 5 → results k = .ok a →
        (∀ j, j < k → ∃ e, results j = .error e) → outcome = .ok a ∧ ncalls = k + 1) ∧
      (∀ e : E, (∀ j, j < 5 → ∃ e', results j = .error e') → results 4 = .error e →
        outcome = .error e ∧ ncalls = 5) := by
  have hbounds : ∀ j : ℕ, min (300 : ℚ) (15 * 2 ^ j) ≤ min 300 (15 * 2 ^ j) + jitter j ∧
      min (300 : ℚ) (15 * 2 ^ j) + jitter j ≤ min 300 (15 * 2 ^ j) * (11 / 10) := by
    intro j
    obtain ⟨hj0, hj1⟩ := hjit j
    constructor
    · linarith
    · linarith
  have hzero : (fun j => min (300 : ℚ) (15 * 2 ^ (0 + j)) + jitter (0 + j)) =
      (fun j => min (300 : ℚ) (15 * 2 ^ j) + jitter j) := by
    funext j
    rw [Nat.zero_add]
  by_cases hex : ∃ k, k < 5 ∧ ∃ a, results k = .ok a
  · haveI : DecidablePred (fun k => k < 5 ∧ ∃ a, results k = .ok a) :=
      fun k => Classical.dec _
    set k0 := Nat.find hex with hk0def
    obtain ⟨hk0lt, a0, hok0⟩ := Nat.find_spec hex
    have hmin : ∀ m, m < k0 → ¬ (m < 5 ∧ ∃ a, results m = .ok a) :=
      fun m hm => Nat.find_min hex hm
    have hfails : ∀ j, j < k0 → ∃ e, results j = .error e := by
      intro j hj
      have h1 : ¬ (j < 5 ∧ ∃ a, results j = .ok a) := hmin j hj
      cases hr : results j with
      | ok a => exact absurd ⟨by omega, a, hr⟩ h1
      | error e => exact ⟨e, rfl⟩
    have hrun := retryGo_success results jitter 5 15 300 k0 0 5 a0 (by omega) (by omega)
      (by rw [Nat.zero_add]; exact hok0)
      (fun j hj => by
        obtain ⟨e, he⟩ := hfails j hj
        exact ⟨e, by rw [Nat.zero_add]; exact he⟩)
    refine ⟨.ok a0, (List.range k0).map (fun j => min 300 (15 * 2 ^ j) + jitter j),
      k0 + 1, ?_, by omega, ?_, hbounds, ?_, ?_⟩
    · unfold retry_with_backoff
      rw [hrun, Nat.zero_add, hzero]
    · rw [show k0 + 1 - 1 = k0 from by omega]
    · intro k a hk hok hfailk
      have hkk0 : k = k0 := by
        rcases lt_trichotomy k k0 with h | h | h
        · exact absurd ⟨hk, a, hok⟩ (hmin k h)
        · exact h
        · obtain ⟨e, he⟩ := hfailk k0 h
          rw [hok0] at he
          exact absurd he (by simp)
      constructor
      · rw [hkk0] at hok
        rw [hok0] at hok
        rw [(Except.ok.injEq _ _).mp hok]
      · omega
    · intro e hall hlast
      obtain ⟨e', he'⟩ := hall k0 hk0lt
      rw [hok0] at he'
      exact absurd he' (by simp)
  · push_neg at hex
    have hallerr : ∀ j, j < 5 → ∃ e, results j = .error e := by
      intro j hj
      cases hr : results j with
      | ok a => exact absurd hr (hex j hj a)
      | error e => exact ⟨e, rfl⟩
    obtain ⟨e4, he4⟩ := hallerr 4 (by omega)
    have hrun := retryGo_allfail results jitter 5 15 300 5 0 e4 rfl (by omega)
      (fun j hj1 hj2 => hallerr j hj2) he4
    refine ⟨.error e4, (List.range 4).map (fun j => min 300 (15 * 2 ^ j) + jitter j),
      5, ?_, by omega, ?_, hbounds, ?_, ?_⟩
    · unfold retry_with_backoff
      rw [hrun, hzero]
    · rfl
    · intro k a hk hok hfailk
      exact absurd hok (hex k hk a)
    · intro e hall hlast
      rw [he4] at hlast
      constructor
      · rw [(Except.error.injEq _ _).mp hlast]
      · rfl

/-- The call oracle of C4's witness: the first two attempts raise, the
third succeeds. -/
def c4_results : ℕ → Except String ℕ := fun k => if k < 2 then .error "backend down" else .ok 42

/-- The jitter oracle of C4's witness: every draw is zero. -/
def c4_jitter : ℕ → ℚ := fun _ => 0

/-- Witness for C4: after two failures the third call's result is
returned, with exactly three calls made. -/
theorem c4_retry_with_backoff_spec_witness :
    ∃ (sleeps : List ℚ),
      retry_with_backoff c4_results c4_jitter 5 15 300 = some (.ok 42, sleeps, 3) := by
  have hjit : ∀ k, 0 ≤ c4_jitter k ∧ c4_jitter k ≤ min 300 (15 * 2 ^ k) / 10 := by
    intro k
    constructor
    · exact le_refl 0
    · have h1 : (0 : ℚ) ≤ min 300 (15 * 2 ^ k) := by
        apply le_min
        · norm_num
        · positivity
      rw [show c4_jitter k = 0 from rfl]
      linarith
  obtain ⟨outcome, sleeps, ncalls, heq, _, _, _, hsucc, _⟩ :=
    c4_retry_with_backoff_spec c4_results c4_jitter hjit
  obtain ⟨hout, hn⟩ := hsucc 2 42 (by norm_num) (by rfl)
    (by
      intro j hj
      interval_cases j
      · exact ⟨"backend down", rfl⟩
      · exact ⟨"backend down", rfl⟩)
  refine ⟨sleeps, ?_⟩
  rw [heq, hout, hn]
